import Mathlib

/-
Verification of the Jinja template migrator (src/migrator.py) against its
natural-language specification.  The Python functions are shallowly embedded
as executable Lean functions over lists of characters.  Regular-expression
operations used by the source are embedded as deterministic scanners that
follow the leftmost-match semantics of the Python re module on the concrete
pattern shapes that appear in the source.  All character classes are the
ASCII ranges of the regex classes, matching the ASCII inputs of the claims.
-/

namespace JM

set_option maxRecDepth 100000

/-- Left brace character. -/
def lbc : Char := Char.ofNat 123

/-- Right brace character. -/
def rbc : Char := Char.ofNat 125

/-- Percent character. -/
def pcc : Char := '%'

/-- Single quote, as a one character string. -/
def sq : String := String.mk [Char.ofNat 39]

/-- Left brace, as a one character string. -/
def obr : String := String.mk [lbc]

/-- Right brace, as a one character string. -/
def cbr : String := String.mk [rbc]

/-- ASCII word character: the ASCII range of the regex word class. -/
def isWord (c : Char) : Bool :=
  (65 ≤ c.toNat && c.toNat ≤ 90) || (97 ≤ c.toNat && c.toNat ≤ 122) ||
  (48 ≤ c.toNat && c.toNat ≤ 57) || c.toNat == 95

/-- ASCII whitespace: the ASCII range of the regex space class. -/
def isSpace (c : Char) : Bool :=
  c.toNat == 32 || c.toNat == 9 || c.toNat == 10 || c.toNat == 13 ||
  c.toNat == 11 || c.toNat == 12

/-- Word-ness of an optional character; absent counts as non word. -/
def isWordO : Option Char → Bool
  | none => false
  | some c => isWord c

/-- Regex word boundary between two optional neighbouring characters. -/
def bdryB (a b : Option Char) : Bool :=
  isWordO a != isWordO b

/-- Literal prefix test on character lists. -/
def litPre : List Char → List Char → Bool
  | [], _ => true
  | _ :: _, [] => false
  | a :: as, b :: bs => a = b && litPre as bs

/-- Substring occurrence test on character lists. -/
def isSubstr (old : List Char) : List Char → Bool
  | [] => old.isEmpty
  | c :: r => litPre old (c :: r) || isSubstr old r

/-- Length of the maximal run of leading ASCII whitespace. -/
def wsCount : List Char → Nat
  | [] => 0
  | c :: r => if isSpace c then wsCount r + 1 else 0

/-- Python str.strip restricted to ASCII whitespace. -/
def pyStrip (s : List Char) : List Char :=
  ((s.dropWhile isSpace).reverse.dropWhile isSpace).reverse

/-- Python dict lookup: first binding of the key in an association list. -/
def pyGet {α β : Type} [DecidableEq α] : List (α × β) → α → Option β
  | [], _ => none
  | (a, b) :: r, k => if k = a then some b else pyGet r k

/-- Python dict item assignment: update in place when the key exists,
otherwise append, preserving insertion order. -/
def pyDictInsert {α β : Type} [DecidableEq α] (m : List (α × β)) (k : α) (v : β) :
    List (α × β) :=
  if (pyGet m k).isSome then m.map (fun p => if p.1 = k then (k, v) else p)
  else m ++ [(k, v)]

/- ------------------------------------------------------------------
Variable substitution: JinjaMigrator._apply_variable_mappings.
The source applies, for each (old, new) pair in dict order, three
re.sub passes over the content, in this order:
  1. a word-bounded occurrence of old, replaced by new;
  2. left brace, optional spaces, old, optional spaces, right brace,
     all replaced by new;
  3. left brace, percent, space, a percent-free stretch holding a
     word-bounded old, percent, right brace, all replaced by new.
------------------------------------------------------------------ -/

/-- Match of the first substitution pattern at the head of s:
old is a literal prefix and both of its ends sit on word boundaries. -/
def sub1Match (old : List Char) (prev : Option Char) (s : List Char) : Bool :=
  litPre old s && bdryB prev old.head? && bdryB old.getLast? (List.drop old.length s).head?

/-- Scanner for the first substitution pattern with a nonempty old. -/
def sub1Go (old new : List Char) : Nat → Option Char → List Char → List Char
  | 0, _, s => s
  | _ + 1, _, [] => []
  | f + 1, prev, c :: r =>
    if sub1Match old prev (c :: r) then
      new ++ sub1Go old new f old.getLast? (List.drop old.length (c :: r))
    else
      c :: sub1Go old new f (some c) r

/-- Scanner for the degenerate empty old: the pattern is two word
boundaries, a zero width match at every boundary position. -/
def sub1Empty (new : List Char) : Nat → Option Char → List Char → List Char
  | 0, _, s => s
  | _ + 1, prev, [] => if isWordO prev then new else []
  | f + 1, prev, c :: r =>
    (if bdryB prev (some c) then new else []) ++ (c :: sub1Empty new f (some c) r)

/-- First substitution pass: global word-bounded replacement of old by new. -/
def sub1 (old new s : List Char) : List Char :=
  if old.isEmpty then sub1Empty new (s.length + 1) none s
  else sub1Go old new (s.length + 1) none s

/-- Try the bracketed pattern a given number of consumed spaces after the
left brace, largest first, mirroring greedy backtracking. -/
def sub2TryEnd (old : List Char) (r : List Char) (j : Nat) : Option (List Char) :=
  if litPre old (List.drop j r) then
    let a := List.drop (j + old.length) r
    match List.drop (wsCount a) a with
    | c :: rest => if c = rbc then some rest else none
    | [] => none
  else none

/-- Backtracking over the space run after the left brace. -/
def sub2Back (old : List Char) (r : List Char) : Nat → Option (List Char)
  | 0 => sub2TryEnd old r 0
  | j + 1 =>
    match sub2TryEnd old r (j + 1) with
    | some rest => some rest
    | none => sub2Back old r j

/-- Match of the second substitution pattern at the head of s; returns the
rest of the string after the matched span. -/
def sub2TryAt (old : List Char) (s : List Char) : Option (List Char) :=
  match s with
  | c :: r => if c = lbc then sub2Back old r (wsCount r) else none
  | [] => none

/-- Scanner for the second substitution pattern. -/
def sub2Go (old new : List Char) : Nat → List Char → List Char
  | 0, s => s
  | _ + 1, [] => []
  | f + 1, c :: r =>
    match sub2TryAt old (c :: r) with
    | some rest => new ++ sub2Go old new f rest
    | none => c :: sub2Go old new f r

/-- Second substitution pass. -/
def sub2 (old new s : List Char) : List Char :=
  sub2Go old new (s.length + 1) s

/-- Word-bounded occurrence of old somewhere in the list, given the
character just before the list. -/
def wbIn (old : List Char) : Nat → Option Char → List Char → Bool
  | 0, _, _ => false
  | _ + 1, _, [] => false
  | f + 1, prev, c :: r =>
    (litPre old (c :: r) && bdryB prev old.head? &&
      bdryB old.getLast? (List.drop old.length (c :: r)).head?)
    || wbIn old f (some c) r

/-- Match of the third substitution pattern at the head of s: left brace,
percent, space, then a percent-free region that holds a word-bounded old,
closed by percent and right brace.  Returns the rest after the span. -/
def sub3TryAt (old : List Char) (s : List Char) : Option (List Char) :=
  match s with
  | a :: b :: c :: r =>
    if a = lbc && b = pcc && c = ' ' then
      let reg := r.takeWhile (fun x => x ≠ pcc)
      match r.dropWhile (fun x => x ≠ pcc) with
      | x :: y :: rest =>
        if x = pcc && y = rbc && wbIn old (reg.length + 1) (some ' ') (reg ++ [pcc]) then
          some rest
        else none
      | _ => none
    else none
  | _ => none

/-- Scanner for the third substitution pattern. -/
def sub3Go (old new : List Char) : Nat → List Char → List Char
  | 0, s => s
  | _ + 1, [] => []
  | f + 1, c :: r =>
    match sub3TryAt old (c :: r) with
    | some rest => new ++ sub3Go old new f rest
    | none => c :: sub3Go old new f r

/-- Third substitution pass. -/
def sub3 (old new s : List Char) : List Char :=
  sub3Go old new (s.length + 1) s

/-- The three re.sub passes the source applies for one mapping pair, in
source order. -/
def applyPair (old new s : List Char) : List Char :=
  sub3 old new (sub2 old new (sub1 old new s))

/-- JinjaMigrator._apply_variable_mappings: fold of the three passes over
the variable mapping pairs in dict insertion order. -/
def applyVariableMappings (vm : List (String × String)) (s : List Char) : List Char :=
  vm.foldl (fun acc p => applyPair p.1.data p.2.data acc) s

/-- String level wrapper of applyVariableMappings. -/
def applyVarMapS (vm : List (String × String)) (s : String) : String :=
  String.mk (applyVariableMappings vm s.data)

/- ------------------------------------------------------------------
Token view of content: the maximal runs of word and non word characters.
Used to state what the substitution passes do per variable token.
------------------------------------------------------------------ -/

/-- Every character of the list is a word character. -/
def allWord (l : List Char) : Bool :=
  l.all isWord

/-- Accumulating split of a character list into maximal runs of equal
word-ness; b is the class of the run being accumulated, acc its reversed
characters. -/
def runsAux : List Char → Bool → List Char → List (List Char)
  | [], _, acc => [acc.reverse]
  | d :: r, b, acc =>
    if isWord d = b then runsAux r b (d :: acc)
    else acc.reverse :: runsAux r (isWord d) [d]

/-- The maximal runs of a character list, alternating between word runs
(the variable tokens) and non word runs (the separators). -/
def runs : List Char → List (List Char)
  | [] => []
  | c :: r => runsAux r (isWord c) [c]

/-- Apply a function to every word run, keeping non word runs. -/
def tokenWise (g : List Char → List Char) (s : List Char) : List Char :=
  ((runs s).map (fun w => if isWordO w.head? then g w else w)).flatten

/-- The image of one token under the mapping pairs applied sequentially
in table order: each pair rewrites the token when it currently equals the
old name, so a token can chain through several pairs. -/
def applyTok (vm : List (String × String)) (w : List Char) : List Char :=
  vm.foldl (fun acc p => if acc = p.1.data then p.2.data else acc) w

/-- The shape of the mapping stores the program builds: old and new names
are nonempty identifiers made of word characters, and the prompts and the
built-in tables only record pairs with old different from new. -/
def IdStore (vm : List (String × String)) : Prop :=
  ∀ p ∈ vm, allWord p.1.data = true ∧ p.1.data ≠ [] ∧
    allWord p.2.data = true ∧ p.2.data ≠ [] ∧ p.1.data ≠ p.2.data

/-- Alternating run decomposition: every segment is nonempty and of one
word-ness class, consecutive segments have different classes, and the
first segment has a class different from the given preceding one. -/
inductive Alt : Option Bool → List (List Char) → Prop
  | nil : ∀ ob, Alt ob []
  | cons : ∀ (b : Bool) (w : List Char) (ob : Option Bool) (L : List (List Char)),
      w ≠ [] → (∀ c ∈ w, isWord c = b) → ob ≠ some b → Alt (some b) L →
      Alt ob (w :: L)

/- ------------------------------------------------------------------
Block content extraction: JinjaMigrator._extract_blocks_content.
The source uses re.finditer with the DOTALL pattern
  left brace, percent, spaces, block, spaces, name, spaces, percent,
  right brace, then a non greedy stretch, then
  left brace, percent, spaces, endblock, optionally spaces and the same
  name, spaces, percent, right brace
and stores name to stripped content in a dict.
------------------------------------------------------------------ -/

/-- Literal for the block keyword. -/
def blockLit : List Char := "block".data

/-- Literal for the endblock keyword. -/
def endblockLit : List Char := "endblock".data

/-- Literal for the extends keyword. -/
def extendsLit : List Char := "extends".data

/-- Match of the block open directive of the extraction regex at the head
of s; returns the block name and the rest after the directive. -/
def matchOpen (s : List Char) : Option (List Char × List Char) :=
  match s with
  | a :: b :: r =>
    if a = lbc && b = pcc then
      let r1 := List.drop (wsCount r) r
      if litPre blockLit r1 then
        let r2 := List.drop blockLit.length r1
        let w := wsCount r2
        if w = 0 then none
        else
          let r3 := List.drop w r2
          let name := r3.takeWhile isWord
          if name.isEmpty then none
          else
            let r4 := List.drop name.length r3
            match List.drop (wsCount r4) r4 with
            | x :: y :: rest => if x = pcc && y = rbc then some (name, rest) else none
            | _ => none
      else none
    else none
  | _ => none

/-- Match of the endblock directive of the extraction regex at the head of
s, for a given open name; returns the rest after the directive. -/
def matchClose (name : List Char) (s : List Char) : Option (List Char) :=
  match s with
  | a :: b :: r =>
    if a = lbc && b = pcc then
      let r1 := List.drop (wsCount r) r
      if litPre endblockLit r1 then
        let r2 := List.drop endblockLit.length r1
        let w := wsCount r2
        let r3 := List.drop w r2
        match r3 with
        | x :: y :: rest =>
          if x = pcc && y = rbc then some rest
          else
            if 1 ≤ w && litPre name r3 then
              let r4 := List.drop name.length r3
              match List.drop (wsCount r4) r4 with
              | u :: v :: rest2 => if u = pcc && v = rbc then some rest2 else none
              | _ => none
            else none
        | _ => none
      else none
    else none
  | _ => none

/-- Non greedy search for the earliest matching endblock; returns the
content before it and the rest after it. -/
def findClose (name : List Char) : Nat → List Char → Option (List Char × List Char)
  | 0, _ => none
  | _ + 1, [] => none
  | f + 1, c :: r =>
    match matchClose name (c :: r) with
    | some rest => some ([], rest)
    | none =>
      match findClose name f r with
      | some (content, rest) => some (c :: content, rest)
      | none => none

/-- Left to right scan of re.finditer over the full extraction pattern. -/
def extractGo : Nat → List Char → List (List Char × List Char)
  | 0, _ => []
  | _ + 1, [] => []
  | f + 1, c :: r =>
    match matchOpen (c :: r) with
    | some (name, after) =>
      match findClose name (after.length + 1) after with
      | some (content, rest) => (name, pyStrip content) :: extractGo f rest
      | none => extractGo f r
    | none => extractGo f r

/-- JinjaMigrator._extract_blocks_content: scan the source for block spans
and collect them into a dict keyed by block name. -/
def extractBlocksContent (src : List Char) : List (List Char × List Char) :=
  (extractGo (src.length + 1) src).foldl (fun m p => pyDictInsert m p.1 p.2) []

/-- Scan of the open directives the extraction regex detects, regardless
of whether a matching close exists. -/
def opensIn : Nat → List Char → List (List Char)
  | 0, _ => []
  | _ + 1, [] => []
  | f + 1, c :: r =>
    match matchOpen (c :: r) with
    | some (name, after) => name :: opensIn f after
    | none => opensIn f r

/-- Open directives detected anywhere in a source. -/
def opensDetected (s : List Char) : List (List Char) :=
  opensIn (s.length + 1) s

/- ------------------------------------------------------------------
Template generation: JinjaMigrator._generate_new_template.
------------------------------------------------------------------ -/

/-- The per template facts the source builds in _extract_template_info:
free variables, declared blocks, and the raw source text. -/
structure TemplateInfo where
  vars : List String
  blocks : List String
  src : String
  deriving DecidableEq

/-- Python repr of a str to str dict, used by the provenance comment. -/
def pyDictRepr (vm : List (String × String)) : String :=
  obr ++ String.intercalate ", "
    (vm.map (fun p => sq ++ p.1 ++ sq ++ ": " ++ sq ++ p.2 ++ sq)) ++ cbr

/-- The newline join of the generated lines, as Python str.join does it. -/
def joinNL : List String → String
  | [] => ""
  | [l] => l
  | l :: ls => l ++ "\n" ++ joinNL ls

/-- JinjaMigrator._generate_new_template: extends line when the configured
base is nonempty, then each extracted block re-emitted under its mapped
name with variable mappings applied to its content, then the provenance
comments, all joined by newlines. -/
def generateNewTemplate (newBase : String) (bm vm : List (String × String))
    (info : TemplateInfo) (path : String) : String :=
  let ls1 : List String :=
    if newBase ≠ "" then
      [obr ++ "% extends " ++ sq ++ newBase ++ sq ++ " %" ++ cbr, ""]
    else []
  let originalBlocks := extractBlocksContent info.src.data
  let blockLines : List String :=
    originalBlocks.foldr (fun p acc =>
      (obr ++ "% block " ++ ((pyGet bm (String.mk p.1)).getD (String.mk p.1)) ++ " %" ++ cbr) ::
      String.mk (applyVariableMappings vm p.2) ::
      (obr ++ "% endblock %" ++ cbr) :: "" :: acc) []
  let tailA : List String :=
    ["<!-- Migrated template -->",
     "<!-- Original: " ++ path ++ " -->",
     "<!-- Variables: " ++ String.intercalate ", " info.vars ++ " -->"]
  let tailB : List String :=
    if vm ≠ [] then ["<!-- Variable mappings: " ++ pyDictRepr vm ++ " -->"] else []
  joinNL (ls1 ++ blockLines ++ tailA ++ tailB)

/-- The names under which _generate_new_template emits the extracted
blocks: each extracted original name resolved through the block mapping
dict with the original name as the default. -/
def emittedBlockNames (bm : List (String × String)) (src : List Char) : List String :=
  (extractBlocksContent src).map (fun p => (pyGet bm (String.mk p.1)).getD (String.mk p.1))

/- ------------------------------------------------------------------
Per template migration and the batch loop:
JinjaMigrator.migrate_template and the loop in main.
The exclusion test, the interactively chosen target path and the result
of the jinja2 parse are supplied as oracles, since the source delegates
them to the regex library, the prompt flow and the jinja2 library.
------------------------------------------------------------------ -/

/-- JinjaMigrator.migrate_template: excluded templates and operator skips
return success with no write; a parse failure returns failure; otherwise
the generated content is written at the target path. -/
def migrateTemplate (newBase : String) (shouldEx : String → Bool)
    (targetFor : String → Option String) (parseInfo : String → Option TemplateInfo)
    (bm vm : List (String × String)) (path : String) :
    Bool × Option (String × String) :=
  if shouldEx path then (true, none)
  else
    match targetFor path with
    | none => (true, none)
    | some target =>
      match parseInfo path with
      | none => (false, none)
      | some info => (true, some (target, generateNewTemplate newBase bm vm info path))

/-- The migration loop of main: count successes and failures and collect
the written files in order. -/
def runBatch (newBase : String) (shouldEx : String → Bool)
    (targetFor : String → Option String) (parseInfo : String → Option TemplateInfo)
    (bm vm : List (String × String)) :
    List String → Nat × Nat × List (String × String)
  | [] => (0, 0, [])
  | t :: ts =>
    let r := migrateTemplate newBase shouldEx targetFor parseInfo bm vm t
    let rest := runBatch newBase shouldEx targetFor parseInfo bm vm ts
    match r with
    | (true, some o) => (rest.1 + 1, rest.2.1, o :: rest.2.2)
    | (true, none) => (rest.1 + 1, rest.2.1, rest.2.2)
    | (false, _) => (rest.1, rest.2.1 + 1, rest.2.2)

/- ------------------------------------------------------------------
Target path suggestion: JinjaMigrator._suggest_template_path.
------------------------------------------------------------------ -/

/-- Split a character list on slashes. -/
def splitSlashGo (acc : List Char) : List Char → List (List Char)
  | [] => [acc.reverse]
  | c :: r => if c = '/' then acc.reverse :: splitSlashGo [] r else splitSlashGo (c :: acc) r

/-- The parts of a relative posix path, as pathlib computes them: the
nonempty slash separated components. -/
def pathParts (p : String) : List (List Char) :=
  (splitSlashGo [] p.data).filter (fun x => x ≠ [])

/-- pathlib name: the last component, empty when there is none. -/
def pyNameOf (p : String) : List Char :=
  (pathParts p).getLast?.getD []

/-- Index of the last dot in a character list, if any. -/
def rfindDot : List Char → Option Nat
  | [] => none
  | c :: r =>
    match rfindDot r with
    | some k => some (k + 1)
    | none => if c = '.' then some 0 else none

/-- pathlib stem: the name with its final suffix removed, when the last
dot is neither first nor last. -/
def pyStem (name : List Char) : List Char :=
  match rfindDot name with
  | some k => if 0 < k ∧ k < name.length - 1 then name.take k else name
  | none => name

/-- ASCII lower casing of one character. -/
def lowerCh (c : Char) : Char :=
  if 65 ≤ c.toNat ∧ c.toNat ≤ 90 then Char.ofNat (c.toNat + 32) else c

/-- ASCII lower casing of a string, as a character list. -/
def lowerStr (p : String) : List Char :=
  p.data.map lowerCh

/-- Python substring membership of sub in the lower cased path. -/
def containsLower (p : String) (sub : String) : Bool :=
  isSubstr sub.data (lowerStr p)

/-- JinjaMigrator._suggest_template_path: root files that are not named
base go under pages; otherwise paths holding admin go under admin; then
paths holding user go under user; otherwise unchanged. -/
def suggestTemplatePath (p : String) : String :=
  if (pathParts p).length = 1 ∧ pyStem (pyNameOf p) ≠ "base".data then
    "pages/" ++ p
  else if containsLower p "admin" then
    "admin/" ++ String.mk (pyNameOf p)
  else if containsLower p "user" then
    "user/" ++ String.mk (pyNameOf p)
  else p

/- ------------------------------------------------------------------
Automatic mapping passes: JinjaMigrator._auto_map_variables and the
automatic portion of JinjaMigrator._interactive_block_mapping.
------------------------------------------------------------------ -/

/-- The built in variable rename table of _auto_map_variables. -/
def autoVarTable : List (String × String) :=
  [("user_name", "username"), ("user_email", "email"), ("page_title", "title"),
   ("current_user", "user"), ("nav_items", "navigation")]

/-- JinjaMigrator._auto_map_variables: assign the built in rename for
every table key among the discovered variables. -/
def autoMapVariables (discovered : List String) (vm : List (String × String)) :
    List (String × String) :=
  autoVarTable.foldl (fun m p => if p.1 ∈ discovered then pyDictInsert m p.1 p.2 else m) vm

/-- The built in block rename table of _interactive_block_mapping. -/
def autoBlockTable : List (String × String) :=
  [("content", "main_content"), ("sidebar", "aside_content"),
   ("page_scripts", "scripts"), ("page_styles", "styles")]

/-- The automatic portion of JinjaMigrator._interactive_block_mapping:
nothing when no blocks were discovered; otherwise, when the preserve flag
is set, assign the built in rename for every table key among the
discovered blocks.  The interactive continuation is an external prompt
flow and is outside the embedded core. -/
def interactiveBlockAuto (autoPreserveBlocks : Bool) (discoveredBlocks : List String)
    (bm : List (String × String)) : List (String × String) :=
  if discoveredBlocks.isEmpty then bm
  else if autoPreserveBlocks then
    autoBlockTable.foldl
      (fun m p => if p.1 ∈ discoveredBlocks then pyDictInsert m p.1 p.2 else m) bm
  else bm

/- ------------------------------------------------------------------
A grammar acceptor for rewritten output and template sources.
------------------------------------------------------------------ -/

/-- Drop one leading dash, for whitespace control markers. -/
def dropDash : List Char → List Char
  | [] => []
  | c :: r => if c = '-' then r else c :: r

/-- Modelled from the spec: block open directive of the grammar the
Parser accepts (jinja2 syntax, including whitespace control markers),
which the repository delegates to the jinja2 library. -/
def jOpen (s : List Char) : Option (List Char × List Char) :=
  match s with
  | a :: b :: r =>
    if a = lbc && b = pcc then
      let r0 := dropDash r
      let r1 := List.drop (wsCount r0) r0
      if litPre blockLit r1 then
        let r2 := List.drop blockLit.length r1
        let w := wsCount r2
        if w = 0 then none
        else
          let r3 := List.drop w r2
          let name := r3.takeWhile isWord
          if name.isEmpty then none
          else
            let r4 := List.drop name.length r3
            match dropDash (List.drop (wsCount r4) r4) with
            | x :: y :: rest => if x = pcc && y = rbc then some (name, rest) else none
            | _ => none
      else none
    else none
  | _ => none

/-- Modelled from the spec: endblock directive of the grammar the Parser
accepts, with an optional repeated name and whitespace control markers. -/
def jClose (s : List Char) : Option (Option (List Char) × List Char) :=
  match s with
  | a :: b :: r =>
    if a = lbc && b = pcc then
      let r0 := dropDash r
      let r1 := List.drop (wsCount r0) r0
      if litPre endblockLit r1 then
        let r2 := List.drop endblockLit.length r1
        let w := wsCount r2
        let r3 := List.drop w r2
        match dropDash r3 with
        | x :: y :: rest =>
          if x = pcc && y = rbc then some (none, rest)
          else
            if 1 ≤ w then
              let name := r3.takeWhile isWord
              if name.isEmpty then none
              else
                let r4 := List.drop name.length r3
                match dropDash (List.drop (wsCount r4) r4) with
                | u :: v :: rest2 =>
                  if u = pcc && v = rbc then some (some name, rest2) else none
                | _ => none
            else none
        | _ => none
      else none
    else none
  | _ => none

/-- Modelled from the spec: the AST walk of the Parser over block
declarations.  Scans the source keeping a stack of open blocks; records
every declared name in first seen order; rejects an unmatched close, a
close naming a different block, or a dangling open.  The repository
performs this walk with the jinja2 parser, outside src. -/
def parseScan : Nat → List (List Char) → List (List Char) → List Char →
    Option (List (List Char))
  | 0, _, _, _ => none
  | _ + 1, stack, acc, [] => if stack.isEmpty then some acc.reverse else none
  | f + 1, stack, acc, c :: r =>
    match jOpen (c :: r) with
    | some (name, after) => parseScan f (name :: stack) (name :: acc) after
    | none =>
      match jClose (c :: r) with
      | some (mName, after) =>
        match stack with
        | [] => none
        | top :: st =>
          match mName with
          | none => parseScan f st acc after
          | some n => if n = top then parseScan f st acc after else none
      | none => parseScan f stack acc r

/-- Modelled from the spec: the block declaration list the Parser finds,
or none when the source is rejected. -/
def parseBlocks (s : List Char) : Option (List (List Char)) :=
  parseScan (s.length + 1) [] [] s

/-- An extends directive begins at the head of s. -/
def extAt (s : List Char) : Bool :=
  match s with
  | a :: b :: r =>
    a = lbc && b = pcc &&
      (let r1 := List.drop (wsCount (dropDash r)) (dropDash r)
       litPre extendsLit r1 &&
         (match List.drop extendsLit.length r1 with
          | c :: _ => isSpace c
          | [] => false))
  | _ => false

/-- Positions of extends directives in the source. -/
def extPosGo : Nat → Nat → List Char → List Nat
  | 0, _, _ => []
  | _ + 1, _, [] => []
  | f + 1, i, c :: r => (if extAt (c :: r) then [i] else []) ++ extPosGo f (i + 1) r

/-- Modelled from the spec: the extends discipline of the grammar the
Parser accepts, at most one extends directive and only at the very
start. -/
def extendsOnlyFirst (s : List Char) : Bool :=
  match extPosGo (s.length + 1) 0 s with
  | [] => true
  | [i] => i == 0
  | _ => false

/-- Modelled from the spec: syntactic well-formedness under the grammar
the Parser accepts, namely every emitted block open has a matching close
and the extends directive appears at most once and first. -/
def wellFormedSpec (s : List Char) : Bool :=
  (parseBlocks s).isSome && extendsOnlyFirst s

/- ------------------------------------------------------------------
Concrete inputs used by the claims.
------------------------------------------------------------------ -/

/-- The interpolation of a single variable name, with surrounding spaces. -/
def interp (v : String) : String :=
  obr ++ obr ++ " " ++ v ++ " " ++ cbr ++ cbr

/-- The substitution example source of the spec. -/
def c8src : String :=
  "Hello " ++ interp "user_name" ++ ", role: " ++ interp "role"

/-- The expected output of the substitution example. -/
def c8out : String :=
  "Hello " ++ interp "username" ++ ", role: " ++ interp "role"

/-- An interpolation of the longer identifier user_name_full. -/
def c8full : String := interp "user_name_full"

/-- A raw source with one block nested inside another. -/
def s1src : String :=
  obr ++ "% block outer %" ++ cbr ++ "A" ++ obr ++ "% block inner %" ++ cbr ++
    "B" ++ obr ++ "% endblock %" ++ cbr ++ "C" ++ obr ++ "% endblock %" ++ cbr

/-- The rewritten output of the nested source under empty mappings. -/
def s1out : String :=
  generateNewTemplate "base.html" [] [] (TemplateInfo.mk [] ["outer", "inner"] s1src) "t.html"

/-- A raw source whose single block uses whitespace control markers. -/
def t3src : String :=
  obr ++ "%- block content -%" ++ cbr ++ "Hello" ++ obr ++ "%- endblock -%" ++ cbr

/-- The rewritten output of the whitespace control source with an empty
mapping store and an empty base template. -/
def t3out : String :=
  generateNewTemplate "" [] [] (TemplateInfo.mk [] ["content"] t3src) "t.html"

/-- A raw source whose block open is detected by the extraction regex but
whose close, written with a whitespace control marker, is not. -/
def s7src : String :=
  obr ++ "% block a %" ++ cbr ++ "x" ++ obr ++ "%- endblock %" ++ cbr

/-- The rewritten output of the corrupt-for-extraction source. -/
def s7out : String :=
  generateNewTemplate "base.html" [] [] (TemplateInfo.mk [] ["a"] s7src) "t.html"

/- ------------------------------------------------------------------
Lemmas about the dict embedding.
------------------------------------------------------------------ -/

theorem pyGet_cons {α β : Type} [DecidableEq α] (x1 : α) (x2 : β) (r : List (α × β))
    (k : α) : pyGet ((x1, x2) :: r) k = if k = x1 then some x2 else pyGet r k := rfl

theorem pyGet_map_ne {α β : Type} [DecidableEq α] (m : List (α × β)) (a k : α) (b : β)
    (h : k ≠ a) :
    pyGet (m.map (fun p => if p.1 = a then (a, b) else p)) k = pyGet m k := by
  induction m with
  | nil => rfl
  | cons x r ih =>
    obtain ⟨x1, x2⟩ := x
    rw [List.map_cons]
    by_cases hx : x1 = a
    · rw [show (if (x1, x2).1 = a then (a, b) else (x1, x2)) = (a, b) from if_pos hx]
      rw [pyGet_cons, pyGet_cons, if_neg h, if_neg (fun hq => h (hq.trans hx)), ih]
    · rw [show (if (x1, x2).1 = a then (a, b) else (x1, x2)) = (x1, x2) from if_neg hx]
      rw [pyGet_cons, pyGet_cons, ih]

theorem pyGet_map_self {α β : Type} [DecidableEq α] (m : List (α × β)) (a : α) (b : β)
    (h : (pyGet m a).isSome = true) :
    pyGet (m.map (fun p => if p.1 = a then (a, b) else p)) a = some b := by
  induction m with
  | nil => simp [pyGet] at h
  | cons x r ih =>
    obtain ⟨x1, x2⟩ := x
    rw [List.map_cons]
    by_cases hx : x1 = a
    · rw [show (if (x1, x2).1 = a then (a, b) else (x1, x2)) = (a, b) from if_pos hx]
      rw [pyGet_cons, if_pos rfl]
    · rw [show (if (x1, x2).1 = a then (a, b) else (x1, x2)) = (x1, x2) from if_neg hx]
      have hax : ¬a = x1 := fun hq => hx hq.symm
      rw [pyGet_cons, if_neg hax]
      rw [pyGet_cons, if_neg hax] at h
      exact ih h

theorem pyGet_append_none {α β : Type} [DecidableEq α] (m l : List (α × β)) (k : α)
    (h : pyGet m k = none) : pyGet (m ++ l) k = pyGet l k := by
  induction m with
  | nil => rfl
  | cons x r ih =>
    obtain ⟨x1, x2⟩ := x
    rw [pyGet_cons] at h
    rw [List.cons_append, pyGet_cons]
    by_cases hx : k = x1
    · rw [if_pos hx] at h
      exact absurd h (by simp)
    · rw [if_neg hx] at h
      rw [if_neg hx]
      exact ih h

theorem pyGet_append_some {α β : Type} [DecidableEq α] (m l : List (α × β)) (k : α)
    {v : β} (h : pyGet m k = some v) : pyGet (m ++ l) k = some v := by
  induction m with
  | nil => simp [pyGet] at h
  | cons x r ih =>
    obtain ⟨x1, x2⟩ := x
    rw [pyGet_cons] at h
    rw [List.cons_append, pyGet_cons]
    by_cases hx : k = x1
    · rw [if_pos hx] at h
      rw [if_pos hx]
      exact h
    · rw [if_neg hx] at h
      rw [if_neg hx]
      exact ih h

theorem pyDictInsert_get_self {α β : Type} [DecidableEq α] (m : List (α × β)) (a : α)
    (b : β) : pyGet (pyDictInsert m a b) a = some b := by
  unfold pyDictInsert
  by_cases h : (pyGet m a).isSome = true
  · simp [h]
    exact pyGet_map_self m a b h
  · have hn : pyGet m a = none := by
      cases hq : pyGet m a with
      | none => rfl
      | some v => rw [hq] at h; simp at h
    simp [h]
    rw [pyGet_append_none m _ a hn]
    simp [pyGet]

theorem pyDictInsert_get_ne {α β : Type} [DecidableEq α] (m : List (α × β)) (a k : α)
    (b : β) (h : k ≠ a) : pyGet (pyDictInsert m a b) k = pyGet m k := by
  unfold pyDictInsert
  by_cases hs : (pyGet m a).isSome = true
  · simp [hs]
    exact pyGet_map_ne m a k b h
  · simp [hs]
    cases hq : pyGet m k with
    | none => rw [pyGet_append_none m _ k hq]; simp [pyGet, h]
    | some v => exact pyGet_append_some m _ k hq

/-- Preservation through one automatic fill pass over a rename table: an
existing binding survives when its key is not a discovered table key. -/
theorem foldl_auto_preserve (tbl : List (String × String)) (d : List String)
    (vm : List (String × String)) (k : String) (v : String)
    (h : pyGet vm k = some v) (hk : pyGet tbl k = none ∨ k ∉ d) :
    pyGet (tbl.foldl (fun m p => if p.1 ∈ d then pyDictInsert m p.1 p.2 else m) vm) k
      = some v := by
  induction tbl generalizing vm with
  | nil => exact h
  | cons p rest ih =>
    obtain ⟨o, n⟩ := p
    have hko : pyGet (if o ∈ d then pyDictInsert vm o n else vm) k = some v := by
      by_cases hd : o ∈ d
      · by_cases hko : k = o
        · subst hko
          rcases hk with hk | hk
          · simp [pyGet] at hk
          · exact absurd hd hk
        · simp [hd]
          rw [pyDictInsert_get_ne vm o k n hko]
          exact h
      · simp [hd]
        exact h
    have hk2 : pyGet rest k = none ∨ k ∉ d := by
      rcases hk with hk | hk
      · left
        by_cases hko : k = o
        · simp [pyGet, hko] at hk
        · simpa [pyGet, hko] using hk
      · right; exact hk
    simpa [List.foldl] using ih _ hko hk2

theorem pyGet_none_of_not_mem {α β : Type} [DecidableEq α] (m : List (α × β)) (k : α)
    (h : k ∉ m.map Prod.fst) : pyGet m k = none := by
  induction m with
  | nil => rfl
  | cons x r ih =>
    obtain ⟨x1, x2⟩ := x
    have hk1 : k ≠ x1 := by
      intro hq
      exact h (by simp [hq])
    have hk2 : k ∉ r.map Prod.fst := by
      intro hq
      exact h (by simp; right; simpa using hq)
    rw [pyGet_cons, if_neg hk1]
    exact ih hk2

/-- Assignment through one automatic fill pass over a rename table with
distinct keys: every table key among the discovered names comes out bound
to its table value, whatever it was bound to before. -/
theorem foldl_auto_assign (tbl : List (String × String)) (d : List String)
    (vm : List (String × String)) (k n : String)
    (h : pyGet tbl k = some n) (hd : k ∈ d) (hu : (tbl.map Prod.fst).Nodup) :
    pyGet (tbl.foldl (fun m p => if p.1 ∈ d then pyDictInsert m p.1 p.2 else m) vm) k
      = some n := by
  induction tbl generalizing vm with
  | nil => simp [pyGet] at h
  | cons p rest ih =>
    obtain ⟨o, v⟩ := p
    rw [List.map_cons, List.nodup_cons] at hu
    by_cases hko : k = o
    · subst hko
      rw [pyGet_cons, if_pos rfl] at h
      have hv : v = n := by
        injection h
      have hacc : pyGet (if k ∈ d then pyDictInsert vm k v else vm) k = some n := by
        rw [if_pos hd, hv]
        exact pyDictInsert_get_self vm k n
      have hrest : pyGet rest k = none :=
        pyGet_none_of_not_mem rest k hu.1
      simpa [List.foldl] using
        foldl_auto_preserve rest d _ k n hacc (Or.inl hrest)
    · rw [pyGet_cons, if_neg hko] at h
      simpa [List.foldl] using ih (if o ∈ d then pyDictInsert vm o v else vm) h hu.2

/- ------------------------------------------------------------------
Claim C2: the automatic default-mapping passes.
------------------------------------------------------------------ -/

/-- C2, counterexample: the automatic variable pass does NOT have
fill-if-absent semantics.  A store that already maps user_name to member,
with user_name among the discovered variables, comes out of the pass
mapping user_name to username: the existing explicit mapping is
overwritten. -/
theorem c2_overwrite_cex :
    pyGet [("user_name", "member")] "user_name" = some "member"
    ∧ pyGet (autoMapVariables ["user_name"] [("user_name", "member")]) "user_name"
        = some "username"
    ∧ ("username" : String) ≠ "member" := by
  refine ⟨rfl, by decide, by decide⟩

/-- C2, amended: the automatic passes assign their built-in rename to
every heuristic key present among the discovered names, overwriting any
existing mapping for such a key; a mapping whose key is not a heuristic
table key, or whose key was not discovered, is preserved.  Both halves
are stated for every mapping store and every discovered set. -/
theorem c2_auto_pass_behaviour :
    (∀ d vm k v, pyGet vm k = some v → (pyGet autoVarTable k = none ∨ k ∉ d) →
        pyGet (autoMapVariables d vm) k = some v)
    ∧ (∀ d vm k v, pyGet vm k = some v → (pyGet autoBlockTable k = none ∨ k ∉ d) →
        pyGet (interactiveBlockAuto true d vm) k = some v)
    ∧ (∀ d vm k n, pyGet autoVarTable k = some n → k ∈ d →
        pyGet (autoMapVariables d vm) k = some n)
    ∧ (∀ d vm k n, pyGet autoBlockTable k = some n → k ∈ d →
        pyGet (interactiveBlockAuto true d vm) k = some n) := by
  refine ⟨?_, ?_, ?_, ?_⟩
  · intro d vm k v h hk
    exact foldl_auto_preserve autoVarTable d vm k v h hk
  · intro d vm k v h hk
    unfold interactiveBlockAuto
    by_cases hd : d.isEmpty = true
    · simp [hd]
      exact h
    · simp [hd]
      exact foldl_auto_preserve autoBlockTable d vm k v h hk
  · intro d vm k n h hd
    exact foldl_auto_assign autoVarTable d vm k n h hd (by decide)
  · intro d vm k n h hd
    have hne : d.isEmpty = false := by
      cases d with
      | nil => cases hd
      | cons a r => rfl
    unfold interactiveBlockAuto
    simp [hne]
    exact foldl_auto_assign autoBlockTable d vm k n h hd (by decide)

/-- C2, witness for the amended theorem: a binding for a key outside the
discovered set survives the automatic variable pass. -/
theorem c2_auto_pass_witness :
    pyGet (autoMapVariables ["user_name"] [("page_title", "kept")]) "page_title"
      = some "kept" :=
  c2_auto_pass_behaviour.1 ["user_name"] [("page_title", "kept")] "page_title" "kept"
    rfl (Or.inr (by decide))

/- ------------------------------------------------------------------
Claims C5 and C6: the target path suggestion.
------------------------------------------------------------------ -/

/-- C5, counterexample: the suggestion for profile_user.html is not the
user directory relocation the claim states. -/
theorem c5_profile_user_cex :
    suggestTemplatePath "profile_user.html" ≠ "user/profile_user.html" := by
  decide

/-- C5, amended: profile_user.html has no directory component and is not
named base, so the first rule fires and the suggestion is
pages/profile_user.html; the user rule is never reached. -/
theorem c5_profile_user_pages :
    suggestTemplatePath "profile_user.html" = "pages/profile_user.html" := by
  decide

/-- C6: the suggestion rules are evaluated in the fixed order root-file,
admin, user, unchanged, first match winning; in particular dashboard.html
goes under pages and admin/settings.html stays at admin/settings.html. -/
theorem c6_rule_order :
    suggestTemplatePath "dashboard.html" = "pages/dashboard.html"
    ∧ suggestTemplatePath "admin/settings.html" = "admin/settings.html"
    ∧ (∀ p, (pathParts p).length = 1 → pyStem (pyNameOf p) ≠ "base".data →
        suggestTemplatePath p = "pages/" ++ p)
    ∧ (∀ p, ¬((pathParts p).length = 1 ∧ pyStem (pyNameOf p) ≠ "base".data) →
        containsLower p "admin" = true →
        suggestTemplatePath p = "admin/" ++ String.mk (pyNameOf p))
    ∧ (∀ p, ¬((pathParts p).length = 1 ∧ pyStem (pyNameOf p) ≠ "base".data) →
        containsLower p "admin" = false → containsLower p "user" = true →
        suggestTemplatePath p = "user/" ++ String.mk (pyNameOf p))
    ∧ (∀ p, ¬((pathParts p).length = 1 ∧ pyStem (pyNameOf p) ≠ "base".data) →
        containsLower p "admin" = false → containsLower p "user" = false →
        suggestTemplatePath p = p) := by
  refine ⟨by decide, by decide, ?_, ?_, ?_, ?_⟩
  · intro p h1 h2
    rw [suggestTemplatePath, if_pos ⟨h1, h2⟩]
  · intro p h1 h2
    rw [suggestTemplatePath, if_neg h1, if_pos h2]
  · intro p h1 h2 h3
    rw [suggestTemplatePath, if_neg h1, if_neg (by simp [h2]), if_pos h3]
  · intro p h1 h2 h3
    rw [suggestTemplatePath, if_neg h1, if_neg (by simp [h2]), if_neg (by simp [h3])]

/-- C6, witness: the first rule applied at a concrete root file, through
the rule-order theorem. -/
theorem c6_rule_order_witness :
    suggestTemplatePath "contact.html" = "pages/contact.html" :=
  c6_rule_order.2.2.1 "contact.html" (by decide) (by decide)

/- ------------------------------------------------------------------
Lemmas about substring occurrence and the substitution scanners.
------------------------------------------------------------------ -/

theorem isSubstr_nil_old (s : List Char) : isSubstr [] s = true := by
  cases s <;> simp [isSubstr, litPre, List.isEmpty]

theorem litPre_isSubstr {old s : List Char} (h : litPre old s = true) :
    isSubstr old s = true := by
  cases s with
  | nil =>
    cases old with
    | nil => simp [isSubstr, List.isEmpty]
    | cons a as => simp [litPre] at h
  | cons c r => simp [isSubstr, h]

theorem isSubstr_cons {old : List Char} (c : Char) {r : List Char}
    (h : isSubstr old r = true) : isSubstr old (c :: r) = true := by
  simp [isSubstr, h]

theorem isSubstr_drop {old s : List Char} {j : Nat}
    (h : isSubstr old (List.drop j s) = true) : isSubstr old s = true := by
  induction j generalizing s with
  | zero => simpa using h
  | succ n ih =>
    cases s with
    | nil => simpa using h
    | cons c r => exact isSubstr_cons c (ih (by simpa using h))

theorem litPre_append {old : List Char} (u : List Char) :
    ∀ {t : List Char}, litPre old t = true → litPre old (t ++ u) = true := by
  induction old with
  | nil => intro t _; simp [litPre]
  | cons a as ih =>
    intro t h
    cases t with
    | nil => simp [litPre] at h
    | cons b bs =>
      simp only [litPre, Bool.and_eq_true, decide_eq_true_eq] at h
      simp only [List.cons_append, litPre, Bool.and_eq_true, decide_eq_true_eq]
      exact ⟨h.1, ih h.2⟩

theorem isSubstr_append {old : List Char} (u : List Char) :
    ∀ {t : List Char}, isSubstr old t = true → isSubstr old (t ++ u) = true := by
  intro t
  induction t with
  | nil =>
    intro h
    have : old = [] := by
      cases old with
      | nil => rfl
      | cons a as => simp [isSubstr, List.isEmpty] at h
    subst this
    exact isSubstr_nil_old u
  | cons c r ih =>
    intro h
    simp only [isSubstr, Bool.or_eq_true] at h
    rcases h with h | h
    · simp only [List.cons_append, isSubstr, Bool.or_eq_true]
      exact Or.inl (litPre_append u h)
    · simp only [List.cons_append, isSubstr, Bool.or_eq_true]
      exact Or.inr (ih h)

theorem isSubstr_split {old s : List Char} (h : isSubstr old s = false) :
    ∀ {c : Char} {r : List Char}, s = c :: r →
      litPre old (c :: r) = false ∧ isSubstr old r = false := by
  intro c r hs
  subst hs
  simpa only [isSubstr, Bool.or_eq_false_iff] using h

theorem sub1Go_id {old : List Char} (new : List Char) :
    ∀ (f : Nat) (prev : Option Char) (s : List Char), isSubstr old s = false →
      sub1Go old new f prev s = s := by
  intro f
  induction f with
  | zero => intro prev s _; rfl
  | succ n ih =>
    intro prev s h
    cases s with
    | nil => rfl
    | cons c r =>
      obtain ⟨h1, h2⟩ := isSubstr_split h rfl
      have hm : sub1Match old prev (c :: r) = false := by
        simp [sub1Match, h1]
      rw [sub1Go, hm]
      simp only [Bool.false_eq_true, if_false]
      rw [ih (some c) r h2]

theorem sub1_id {old new s : List Char} (h : isSubstr old s = false) :
    sub1 old new s = s := by
  unfold sub1
  cases old with
  | nil => rw [isSubstr_nil_old s] at h; cases h
  | cons a as =>
    simp only [List.isEmpty, Bool.false_eq_true, if_false]
    exact sub1Go_id new (s.length + 1) none s h

theorem sub2TryEnd_sub {old r : List Char} {j : Nat} {rest : List Char}
    (h : sub2TryEnd old r j = some rest) : isSubstr old r = true := by
  by_cases hl : litPre old (List.drop j r) = true
  · exact isSubstr_drop (litPre_isSubstr hl)
  · rw [sub2TryEnd, if_neg hl] at h
    cases h

theorem sub2Back_sub {old r : List Char} {rest : List Char} :
    ∀ {j : Nat}, sub2Back old r j = some rest → isSubstr old r = true := by
  intro j
  induction j with
  | zero =>
    intro h
    rw [sub2Back] at h
    exact sub2TryEnd_sub h
  | succ n ih =>
    intro h
    rw [sub2Back] at h
    cases he : sub2TryEnd old r (n + 1) with
    | some q => rw [he] at h; exact sub2TryEnd_sub he
    | none => rw [he] at h; exact ih h

theorem sub2TryAt_sub {old s rest : List Char} (h : sub2TryAt old s = some rest) :
    isSubstr old s = true := by
  cases s with
  | nil => cases h
  | cons c r =>
    rw [sub2TryAt] at h
    by_cases hc : c = lbc
    · rw [if_pos hc] at h
      exact isSubstr_cons c (sub2Back_sub h)
    · rw [if_neg hc] at h
      cases h

theorem sub2Go_id {old : List Char} (new : List Char) :
    ∀ (f : Nat) (s : List Char), isSubstr old s = false → sub2Go old new f s = s := by
  intro f
  induction f with
  | zero => intro s _; rfl
  | succ n ih =>
    intro s h
    cases s with
    | nil => rfl
    | cons c r =>
      obtain ⟨_, h2⟩ := isSubstr_split h rfl
      cases ht : sub2TryAt old (c :: r) with
      | some q => rw [sub2TryAt_sub ht] at h; cases h
      | none =>
        rw [sub2Go, ht]
        rw [ih r h2]

theorem sub2_id {old new s : List Char} (h : isSubstr old s = false) :
    sub2 old new s = s :=
  sub2Go_id new (s.length + 1) s h

theorem wbIn_sub {old : List Char} :
    ∀ {f : Nat} {prev : Option Char} {l : List Char}, wbIn old f prev l = true →
      isSubstr old l = true := by
  intro f
  induction f with
  | zero => intro prev l h; cases h
  | succ n ih =>
    intro prev l h
    cases l with
    | nil => cases h
    | cons c r =>
      rw [wbIn] at h
      simp only [Bool.or_eq_true, Bool.and_eq_true] at h
      rcases h with ⟨⟨h1, _⟩, _⟩ | h
      · exact litPre_isSubstr h1
      · exact isSubstr_cons c (ih h)

theorem sub3TryAt_sub {old s rest : List Char} (h : sub3TryAt old s = some rest) :
    isSubstr old s = true := by
  cases s with
  | nil => cases h
  | cons a s1 =>
    cases s1 with
    | nil => cases h
    | cons b s2 =>
      cases s2 with
      | nil => cases h
      | cons c r =>
        rw [sub3TryAt] at h
        by_cases hc : (a = lbc && b = pcc && c = ' ') = true
        · rw [if_pos hc] at h
          cases hd : r.dropWhile (fun x => x ≠ pcc) with
          | nil => rw [hd] at h; cases h
          | cons x s3 =>
            cases s3 with
            | nil => rw [hd] at h; cases h
            | cons y rest2 =>
              rw [hd] at h
              dsimp only at h
              by_cases hw : (x = pcc && y = rbc &&
                  wbIn old ((r.takeWhile (fun x => x ≠ pcc)).length + 1) (some ' ')
                    (r.takeWhile (fun x => x ≠ pcc) ++ [pcc])) = true
              · have hw2 := hw
                simp only [Bool.and_eq_true, decide_eq_true_eq] at hw2
                obtain ⟨⟨hx, _⟩, hwb⟩ := hw2
                subst hx
                have hsub : isSubstr old (r.takeWhile (fun z => z ≠ pcc) ++ [pcc]) = true :=
                  wbIn_sub hwb
                have hr : r.takeWhile (fun z => z ≠ pcc) ++ [pcc] ++ (y :: rest2) = r := by
                  have hq := List.takeWhile_append_dropWhile (p := fun z => z ≠ pcc) (l := r)
                  rw [hd] at hq
                  rw [List.append_assoc, List.singleton_append]
                  exact hq
                have hfin : isSubstr old r = true := by
                  rw [← hr]
                  exact isSubstr_append (y :: rest2) hsub
                exact isSubstr_cons a (isSubstr_cons b (isSubstr_cons c hfin))
              · rw [if_neg hw] at h
                cases h
        · rw [if_neg hc] at h
          cases h

theorem sub3Go_id {old : List Char} (new : List Char) :
    ∀ (f : Nat) (s : List Char), isSubstr old s = false → sub3Go old new f s = s := by
  intro f
  induction f with
  | zero => intro s _; rfl
  | succ n ih =>
    intro s h
    cases s with
    | nil => rfl
    | cons c r =>
      obtain ⟨_, h2⟩ := isSubstr_split h rfl
      cases ht : sub3TryAt old (c :: r) with
      | some q => rw [sub3TryAt_sub ht] at h; cases h
      | none =>
        rw [sub3Go, ht]
        rw [ih r h2]

theorem sub3_id {old new s : List Char} (h : isSubstr old s = false) :
    sub3 old new s = s :=
  sub3Go_id new (s.length + 1) s h

theorem applyPair_id {old new s : List Char} (h : isSubstr old s = false) :
    applyPair old new s = s := by
  unfold applyPair
  rw [sub1_id h, sub2_id h, sub3_id h]

theorem applyVariableMappings_id (vm : List (String × String)) (s : List Char)
    (h : ∀ p ∈ vm, isSubstr p.1.data s = false) :
    applyVariableMappings vm s = s := by
  induction vm with
  | nil => rfl
  | cons p rest ih =>
    have h1 : applyPair p.1.data p.2.data s = s :=
      applyPair_id (h p (List.mem_cons_self p rest))
    have : applyVariableMappings (p :: rest) s = applyVariableMappings rest (applyPair p.1.data p.2.data s) := rfl
    rw [this, h1]
    exact ih (fun q hq => h q (List.mem_cons_of_mem p hq))

/- ------------------------------------------------------------------
Lemmas about the run decomposition.
------------------------------------------------------------------ -/

theorem isWordO_some (c : Char) : isWordO (some c) = isWord c := rfl

theorem isWordO_none : isWordO none = false := rfl

theorem mem_allWord {l : List Char} (h : allWord l = true) {c : Char} (hc : c ∈ l) :
    isWord c = true := by
  simp only [allWord, List.all_eq_true] at h
  exact h c hc

theorem head_word_of {o : List Char} (ho : allWord o = true) (ho1 : o ≠ []) :
    isWordO o.head? = true := by
  cases o with
  | nil => exact absurd rfl ho1
  | cons c r => exact mem_allWord ho (List.mem_cons_self c r)

theorem last_word_of {o : List Char} (ho : allWord o = true) (ho1 : o ≠ []) :
    isWordO o.getLast? = true := by
  rw [List.getLast?_eq_getLast o ho1]
  exact mem_allWord ho (List.getLast_mem ho1)

theorem space_not_word {c : Char} (h : isSpace c = true) : isWord c = false := by
  simp only [isSpace, Bool.or_eq_true, beq_iff_eq] at h
  simp only [isWord, Bool.or_eq_false_iff, Bool.and_eq_false_iff, beq_eq_false_iff_ne,
    ne_eq, decide_eq_false_iff_not, not_le]
  omega

theorem runsAux_alt : ∀ (r : List Char) (b : Bool) (acc : List Char) (ob : Option Bool),
    acc ≠ [] → (∀ c ∈ acc, isWord c = b) → ob ≠ some b → Alt ob (runsAux r b acc) := by
  intro r
  induction r with
  | nil =>
    intro b acc ob hne hcls hob
    exact Alt.cons b acc.reverse ob [] (by simpa using hne)
      (fun c hc => hcls c (List.mem_reverse.mp hc)) hob (Alt.nil _)
  | cons d r ih =>
    intro b acc ob hne hcls hob
    rw [runsAux]
    by_cases hd : isWord d = b
    · rw [if_pos hd]
      exact ih b (d :: acc) ob (by simp) (by
        intro c hc
        rcases List.mem_cons.mp hc with hc | hc
        · subst hc; exact hd
        · exact hcls c hc) hob
    · rw [if_neg hd]
      exact Alt.cons b acc.reverse ob _ (by simpa using hne)
        (fun c hc => hcls c (List.mem_reverse.mp hc)) hob
        (ih (isWord d) [d] (some b) (by simp)
          (by intro c hc; rw [List.mem_singleton] at hc; subst hc; rfl)
          (by intro hq; exact hd (by injection hq with hq2; exact hq2.symm)))

theorem runs_alt (s : List Char) : Alt none (runs s) := by
  cases s with
  | nil => exact Alt.nil none
  | cons c r =>
    exact runsAux_alt r (isWord c) [c] none (by simp)
      (by intro x hx; rw [List.mem_singleton] at hx; subst hx; rfl) (by simp)

theorem runsAux_flatten : ∀ (r : List Char) (b : Bool) (acc : List Char),
    (runsAux r b acc).flatten = acc.reverse ++ r := by
  intro r
  induction r with
  | nil => intro b acc; simp [runsAux]
  | cons d r ih =>
    intro b acc
    rw [runsAux]
    by_cases hd : isWord d = b
    · rw [if_pos hd, ih]
      simp
    · rw [if_neg hd]
      simp [ih]

theorem runs_flatten (s : List Char) : (runs s).flatten = s := by
  cases s with
  | nil => rfl
  | cons c r =>
    rw [runs, runsAux_flatten]
    simp

theorem runsAux_append_same : ∀ (w : List Char) (t : List Char) (b : Bool) (acc : List Char),
    (∀ c ∈ w, isWord c = b) → runsAux (w ++ t) b acc = runsAux t b (w.reverse ++ acc) := by
  intro w
  induction w with
  | nil => intro t b acc _; simp
  | cons c w' ih =>
    intro t b acc hcls
    have hc : isWord c = b := hcls c (List.mem_cons_self c w')
    rw [List.cons_append, runsAux, if_pos hc,
      ih t b (c :: acc) (fun x hx => hcls x (List.mem_cons_of_mem c hx))]
    simp

theorem runsAux_break : ∀ (t : List Char) (b : Bool) (acc : List Char),
    (∀ d r', t = d :: r' → isWord d ≠ b) → runsAux t b acc = acc.reverse :: runs t := by
  intro t b acc ht
  cases t with
  | nil => rfl
  | cons d r =>
    rw [runsAux, if_neg (ht d r rfl)]
    rfl

theorem alt_flatten_head : ∀ {b : Bool} {L : List (List Char)}, Alt (some b) L →
    ∀ d r', L.flatten = d :: r' → isWord d ≠ b := by
  intro b L hL
  cases hL with
  | nil => intro d r' h; cases h
  | cons b2 w2 _ L2 hne hcls hob _ =>
    intro d r' h
    rw [List.flatten_cons] at h
    cases w2 with
    | nil => exact absurd rfl hne
    | cons e w3 =>
      rw [List.cons_append] at h
      have he : e = d := by injection h
      subst he
      have : isWord e = b2 := hcls e (List.mem_cons_self e w3)
      rw [this]
      intro hq
      exact hob (by rw [hq])

theorem alt_flatten_runs : ∀ {ob : Option Bool} {L : List (List Char)}, Alt ob L →
    runs L.flatten = L := by
  intro ob L hL
  induction hL with
  | nil => rfl
  | cons b w ob2 L2 hne hcls hob hL2 ih =>
    rw [List.flatten_cons]
    cases w with
    | nil => exact absurd rfl hne
    | cons c w' =>
      have hc : isWord c = b := hcls c (List.mem_cons_self c w')
      rw [List.cons_append, runs,
        runsAux_append_same w' _ (isWord c) [c]
          (by intro x hx; rw [hc]; exact hcls x (List.mem_cons_of_mem c hx)),
        runsAux_break _ _ _ (by
          intro d r' hd
          rw [hc]
          exact alt_flatten_head hL2 d r' hd),
        ih]
      simp

theorem alt_map {g : List Char → List Char}
    (hg : ∀ w, w ≠ [] → allWord w = true → g w ≠ [] ∧ allWord (g w) = true) :
    ∀ {ob : Option Bool} {L : List (List Char)}, Alt ob L →
      Alt ob (L.map (fun w => if isWordO w.head? then g w else w)) := by
  intro ob L hL
  induction hL with
  | nil => exact Alt.nil _
  | cons b w ob2 L2 hne hcls hob hL2 ih =>
    rw [List.map_cons]
    have hh : isWordO w.head? = b := by
      cases w with
      | nil => exact absurd rfl hne
      | cons e w' => exact hcls e (List.mem_cons_self e w')
    by_cases hb : b = true
    · subst hb
      have haw : allWord w = true := by
        simp only [allWord, List.all_eq_true]
        exact hcls
      rw [show (if isWordO w.head? then g w else w) = g w from by simp [hh]]
      obtain ⟨hg1, hg2⟩ := hg w hne haw
      exact Alt.cons true (g w) ob2 _ hg1 (fun c hc => mem_allWord hg2 hc) hob ih
    · have hb2 : b = false := by
        cases b
        · rfl
        · exact absurd rfl hb
      subst hb2
      rw [show (if isWordO w.head? then g w else w) = w from by simp [hh]]
      exact Alt.cons false w ob2 _ hne hcls hob ih

theorem alt_mem_facts : ∀ {ob : Option Bool} {L : List (List Char)}, Alt ob L →
    ∀ w ∈ L, w ≠ [] ∧ ∀ c ∈ w, isWord c = isWordO w.head? := by
  intro ob L hL
  induction hL with
  | nil => intro w hw; cases hw
  | cons b w2 ob2 L2 hne hcls hob hL2 ih =>
    intro w hw
    rcases List.mem_cons.mp hw with hw | hw
    · subst hw
      refine ⟨hne, ?_⟩
      intro c hc
      have hh : isWordO w.head? = b := by
        cases w with
        | nil => exact absurd rfl hne
        | cons e w' => exact hcls e (List.mem_cons_self e w')
      rw [hcls c hc, hh]
    · exact ih w hw

/- ------------------------------------------------------------------
Lemmas about the word-boundary pass over run decompositions.
------------------------------------------------------------------ -/

theorem litPre_refl : ∀ (x : List Char), litPre x x = true := by
  intro x
  induction x with
  | nil => rfl
  | cons a as ih => simp [litPre, ih]

theorem litPre_decomp {o : List Char} : ∀ {s : List Char}, litPre o s = true →
    s = o ++ List.drop o.length s := by
  induction o with
  | nil => intro s _; rfl
  | cons a as ih =>
    intro s h
    cases s with
    | nil => simp [litPre] at h
    | cons b bs =>
      simp only [litPre, Bool.and_eq_true, decide_eq_true_eq] at h
      obtain ⟨hab, hpre⟩ := h
      subst hab
      rw [List.cons_append, List.length_cons, List.drop_succ_cons]
      rw [← ih hpre]

theorem sub1Go_nil (o n : List Char) : ∀ (f : Nat) (p : Option Char),
    sub1Go o n f p [] = [] := by
  intro f p
  cases f with
  | zero => rfl
  | succ f2 => rfl

theorem sub1Go_prev_congr (o n : List Char) : ∀ (f : Nat) (p q : Option Char)
    (s : List Char), isWordO p = isWordO q → sub1Go o n f p s = sub1Go o n f q s := by
  intro f
  induction f with
  | zero => intro p q s _; rfl
  | succ f2 ih =>
    intro p q s h
    cases s with
    | nil => rfl
    | cons c r =>
      have hm : sub1Match o p (c :: r) = sub1Match o q (c :: r) := by
        simp [sub1Match, bdryB, h]
      rw [sub1Go, sub1Go, hm]

theorem sub1Go_prev_head (o n : List Char) (ho : allWord o = true) (ho1 : o ≠ []) :
    ∀ (f : Nat) (p q : Option Char) (s : List Char),
      (∀ d r', s = d :: r' → isWord d = false) →
      sub1Go o n f p s = sub1Go o n f q s := by
  intro f p q s hs
  cases f with
  | zero => rfl
  | succ f2 =>
    cases s with
    | nil => rfl
    | cons d r =>
      have hd : isWord d = false := hs d r rfl
      have hl : litPre o (d :: r) = false := by
        cases o with
        | nil => exact absurd rfl ho1
        | cons oc o' =>
          have hoc : isWord oc = true := mem_allWord ho (List.mem_cons_self oc o')
          have : oc ≠ d := by
            intro hq
            rw [hq, hd] at hoc
            cases hoc
          simp [litPre, this]
      have hm1 : sub1Match o p (d :: r) = false := by simp [sub1Match, hl]
      have hm2 : sub1Match o q (d :: r) = false := by simp [sub1Match, hl]
      rw [sub1Go, sub1Go, hm1, hm2]

theorem sub1Go_fuel (o n : List Char) (ho1 : o ≠ []) :
    ∀ (f g : Nat) (p : Option Char) (s : List Char),
      s.length ≤ f → s.length ≤ g → sub1Go o n f p s = sub1Go o n g p s := by
  intro f
  induction f with
  | zero =>
    intro g p s h1 _
    have : s = [] := List.length_eq_zero.mp (Nat.le_zero.mp h1)
    subst this
    rw [sub1Go_nil, sub1Go_nil]
  | succ f2 ih =>
    intro g p s h1 h2
    cases s with
    | nil => rw [sub1Go_nil, sub1Go_nil]
    | cons c r =>
      cases g with
      | zero => simp at h2
      | succ g2 =>
        rw [sub1Go, sub1Go]
        by_cases hm : sub1Match o p (c :: r) = true
        · rw [hm]
          simp only [if_true]
          have hlen : (List.drop o.length (c :: r)).length ≤ f2 := by
            rw [List.length_drop]
            have : 1 ≤ o.length := by
              cases o with
              | nil => exact absurd rfl ho1
              | cons _ _ => simp
            simp only [List.length_cons] at h1 ⊢
            omega
          have hlen2 : (List.drop o.length (c :: r)).length ≤ g2 := by
            rw [List.length_drop]
            have : 1 ≤ o.length := by
              cases o with
              | nil => exact absurd rfl ho1
              | cons _ _ => simp
            simp only [List.length_cons] at h2 ⊢
            omega
          rw [ih g2 o.getLast? _ hlen hlen2]
        · have hm2 : sub1Match o p (c :: r) = false := by
            cases hq : sub1Match o p (c :: r)
            · rfl
            · exact absurd hq hm
          rw [hm2]
          simp only [Bool.false_eq_true, if_false]
          have hr1 : r.length ≤ f2 := by simp at h1; omega
          have hr2 : r.length ≤ g2 := by simp at h2; omega
          rw [ih g2 (some c) r hr1 hr2]

theorem sub1_skip_nonword (o n : List Char) (ho : allWord o = true) (ho1 : o ≠ []) :
    ∀ (w t : List Char) (p : Option Char) (f : Nat), w ≠ [] →
      (∀ c ∈ w, isWord c = false) → (w ++ t).length ≤ f →
      sub1Go o n f p (w ++ t) = w ++ sub1Go o n (t.length + 1) none t := by
  intro w
  induction w with
  | nil => intro t p f hne _ _; exact absurd rfl hne
  | cons c w' ih =>
    intro t p f _ hcls hf
    cases f with
    | zero => simp at hf
    | succ f2 =>
      have hc : isWord c = false := hcls c (List.mem_cons_self c w')
      have hl : litPre o (c :: (w' ++ t)) = false := by
        cases o with
        | nil => exact absurd rfl ho1
        | cons oc o' =>
          have hoc : isWord oc = true := mem_allWord ho (List.mem_cons_self oc o')
          have : oc ≠ c := by
            intro hq
            rw [hq, hc] at hoc
            cases hoc
          simp [litPre, this]
      have hm : sub1Match o p (c :: (w' ++ t)) = false := by simp [sub1Match, hl]
      rw [List.cons_append, sub1Go, hm]
      simp only [Bool.false_eq_true, if_false]
      cases hw : w' with
      | nil =>
        subst hw
        rw [List.nil_append]
        have hp : isWordO (some c) = isWordO (none : Option Char) := by
          simp [isWordO, hc]
        rw [sub1Go_prev_congr o n f2 (some c) none t hp]
        rw [sub1Go_fuel o n ho1 f2 (t.length + 1) none t (by simp at hf; omega) (by omega)]
        rfl
      | cons c2 w2 =>
        rw [← hw]
        rw [ih t (some c) f2 (by rw [hw]; simp)
          (fun x hx => hcls x (List.mem_cons_of_mem c hx)) (by simp at hf ⊢; omega)]
        rfl

theorem sub1_walk_inside (o n : List Char) (ho : allWord o = true) (ho1 : o ≠ []) :
    ∀ (w t : List Char) (p : Option Char) (f : Nat),
      (∀ c ∈ w, isWord c = true) → isWordO p = true →
      (∀ d r', t = d :: r' → isWord d = false) → (w ++ t).length ≤ f →
      sub1Go o n f p (w ++ t) = w ++ sub1Go o n (t.length + 1) none t := by
  intro w
  induction w with
  | nil =>
    intro t p f _ _ ht hf
    rw [List.nil_append]
    rw [sub1Go_prev_head o n ho ho1 f p none t ht]
    rw [sub1Go_fuel o n ho1 f (t.length + 1) none t (by simpa using hf) (by omega)]
    simp
  | cons c w' ih =>
    intro t p f hcls hp ht hf
    cases f with
    | zero => simp at hf
    | succ f2 =>
      have hm : sub1Match o p (c :: (w' ++ t)) = false := by
        have hh : isWordO o.head? = true := head_word_of ho ho1
        simp [sub1Match, bdryB, hp, hh]
      rw [List.cons_append, sub1Go, hm]
      simp only [Bool.false_eq_true, if_false]
      have hcw : isWordO (some c) = true := by
        simpa [isWordO] using hcls c (List.mem_cons_self c w')
      rw [ih t (some c) f2 (fun x hx => hcls x (List.mem_cons_of_mem c hx)) hcw ht
        (by simp at hf ⊢; omega)]
      rfl

theorem sub1_run_eq (o n : List Char) (ho : allWord o = true) (ho1 : o ≠ []) :
    ∀ (t : List Char) (f : Nat), (∀ d r', t = d :: r' → isWord d = false) →
      (o ++ t).length ≤ f →
      sub1Go o n f none (o ++ t) = n ++ sub1Go o n (t.length + 1) none t := by
  intro t f ht hf
  cases o with
  | nil => exact absurd rfl ho1
  | cons oc o2 =>
    cases f with
    | zero => simp at hf
    | succ f2 =>
      have hm : sub1Match (oc :: o2) none (oc :: (o2 ++ t)) = true := by
        have h1 : litPre (oc :: o2) (oc :: (o2 ++ t)) = true := by
          rw [← List.cons_append]
          exact litPre_append t (litPre_refl _)
        have h2 : isWordO (oc :: o2).head? = true := head_word_of ho (by simp)
        have h3 : isWordO (oc :: o2).getLast? = true := last_word_of ho (by simp)
        have h4 : isWordO t.head? = false := by
          cases t with
          | nil => rfl
          | cons d r => simpa [isWordO] using ht d r rfl
        have h5 : List.drop (oc :: o2).length (oc :: (o2 ++ t)) = t := by
          rw [← List.cons_append]
          exact List.drop_left _ _
        have h2b : isWord oc = true := by simpa [isWordO] using h2
        simp [sub1Match, bdryB, h1, h2b, h3, h4, h5, isWordO_some, isWordO_none]
      rw [List.cons_append, sub1Go, hm]
      simp only [if_true]
      congr 1
      rw [show List.drop (oc :: o2).length (oc :: (o2 ++ t)) = t from by
        rw [← List.cons_append]; exact List.drop_left _ _]
      rw [sub1Go_prev_head (oc :: o2) n ho (by simp) f2 (oc :: o2).getLast? none t ht]
      exact sub1Go_fuel (oc :: o2) n (by simp) f2 (t.length + 1) none t
        (by simp at hf ⊢; omega) (by omega)

theorem sub1_run_ne (o n : List Char) (ho : allWord o = true) (ho1 : o ≠ []) :
    ∀ (w t : List Char) (f : Nat), w ≠ [] → (∀ c ∈ w, isWord c = true) → w ≠ o →
      (∀ d r', t = d :: r' → isWord d = false) → (w ++ t).length ≤ f →
      sub1Go o n f none (w ++ t) = w ++ sub1Go o n (t.length + 1) none t := by
  intro w t f hwne hwcls hwo ht hf
  cases w with
  | nil => exact absurd rfl hwne
  | cons c w' =>
    cases f with
    | zero => simp at hf
    | succ f2 =>
      have hm : sub1Match o none (c :: (w' ++ t)) = false := by
        by_cases hl : litPre o (c :: (w' ++ t)) = true
        · have hd := litPre_decomp hl
          rw [show c :: (w' ++ t) = (c :: w') ++ t from rfl] at hd
          rcases List.append_eq_append_iff.mp hd with ⟨e, he1, he2⟩ | ⟨e, he1, he2⟩
          · cases e with
            | nil =>
              rw [List.append_nil] at he1
              exact absurd he1.symm hwo
            | cons ec e' =>
              have hec : isWord ec = false := by
                rw [he2] at ht
                exact ht ec _ rfl
              have hmem : ec ∈ o := by
                rw [he1]
                exact List.mem_append_right _ (List.mem_cons_self ec e')
              rw [mem_allWord ho hmem] at hec
              cases hec
          · cases e with
            | nil =>
              rw [List.append_nil] at he1
              exact absurd he1 hwo
            | cons ec e' =>
              have hmem : ec ∈ c :: w' := by
                rw [he1]
                exact List.mem_append_right _ (List.mem_cons_self ec e')
              have hec : isWord ec = true := hwcls ec hmem
              have hD : (List.drop o.length (c :: (w' ++ t))).head? = some ec := by
                rw [show c :: (w' ++ t) = (c :: w') ++ t from rfl, he2]
                rfl
              have h3 : isWordO o.getLast? = true := last_word_of ho ho1
              have h2o : isWordO o.head? = true := head_word_of ho ho1
              simp [sub1Match, bdryB, hD, h3, h2o, hec, isWordO_some, isWordO_none]
        · have hl2 : litPre o (c :: (w' ++ t)) = false := by
            cases hq : litPre o (c :: (w' ++ t))
            · rfl
            · exact absurd hq hl
          simp [sub1Match, hl2]
      rw [List.cons_append, sub1Go, hm]
      simp only [Bool.false_eq_true, if_false]
      have hcw : isWordO (some c) = true := by
        simpa [isWordO] using hwcls c (List.mem_cons_self c w')
      cases hw' : w' with
      | nil =>
        subst hw'
        rw [List.nil_append]
        rw [sub1Go_prev_head o n ho ho1 f2 (some c) none t ht]
        rw [sub1Go_fuel o n ho1 f2 (t.length + 1) none t (by simp at hf; omega) (by omega)]
        rfl
      | cons c2 w2 =>
        rw [← hw']
        rw [sub1_walk_inside o n ho ho1 w' t (some c) f2
          (fun x hx => hwcls x (List.mem_cons_of_mem c hx)) hcw ht (by simp at hf ⊢; omega)]
        rfl

theorem sub1_tok_aux (o n : List Char) (ho : allWord o = true) (ho1 : o ≠ []) :
    ∀ {ob : Option Bool} {L : List (List Char)}, Alt ob L →
      sub1Go o n (L.flatten.length + 1) none L.flatten
        = (L.map (fun w => if isWordO w.head? then (if w = o then n else w) else w)).flatten := by
  intro ob L hL
  induction hL with
  | nil => simp [sub1Go_nil]
  | cons b w ob2 L2 hne hcls hob hL2 ih =>
    rw [List.flatten_cons, List.map_cons, List.flatten_cons]
    have hh : isWordO w.head? = b := by
      cases w with
      | nil => exact absurd rfl hne
      | cons e w' => exact hcls e (List.mem_cons_self e w')
    by_cases hb : b = true
    · subst hb
      have hwcls : ∀ c ∈ w, isWord c = true := hcls
      have htf : ∀ d r', L2.flatten = d :: r' → isWord d = false := by
        intro d r' hd
        have := alt_flatten_head hL2 d r' hd
        cases hq : isWord d
        · rfl
        · exact absurd hq this
      by_cases hwo : w = o
      · have hh2 : isWordO o.head? = true := by rw [← hwo]; exact hh
        rw [show (if isWordO w.head? then (if w = o then n else w) else w) = n from by
          simp [hwo, hh2]]
        rw [hwo]
        rw [sub1_run_eq o n ho ho1 L2.flatten _ htf (by omega)]
        rw [ih]
      · rw [show (if isWordO w.head? then (if w = o then n else w) else w) = w from by
          simp [hh, hwo]]
        rw [sub1_run_ne o n ho ho1 w L2.flatten _ hne hwcls hwo htf (by omega)]
        rw [ih]
    · have hb2 : b = false := by
        cases b
        · rfl
        · exact absurd rfl hb
      subst hb2
      rw [show (if isWordO w.head? then (if w = o then n else w) else w) = w from by
        simp [hh]]
      rw [sub1_skip_nonword o n ho ho1 w L2.flatten none _ hne
        (by intro c hc; exact hcls c hc) (by omega)]
      rw [ih]

theorem sub1_tokenwise (o n : List Char) (ho : allWord o = true) (ho1 : o ≠ [])
    (s : List Char) :
    sub1 o n s = tokenWise (fun w => if w = o then n else w) s := by
  unfold sub1
  have hoe : o.isEmpty = false := by
    cases o with
    | nil => exact absurd rfl ho1
    | cons _ _ => rfl
  rw [hoe]
  simp only [Bool.false_eq_true, if_false]
  have h1 := sub1_tok_aux o n ho ho1 (runs_alt s)
  rw [runs_flatten] at h1
  exact h1

theorem bdry_right_false {a b : Option Char} (h : bdryB a b = true)
    (ha : isWordO a = true) : isWordO b = false := by
  rw [bdryB, ha] at h
  cases hq : isWordO b
  · rfl
  · rw [hq] at h
    simp at h

theorem bdry_left_false {a b : Option Char} (h : bdryB a b = true)
    (hb : isWordO b = true) : isWordO a = false := by
  rw [bdryB, hb] at h
  cases hq : isWordO a
  · rfl
  · rw [hq] at h
    simp at h

/-- A word bounded occurrence of a nonempty all-word literal in an
alternating run list can only be one of the runs. -/
theorem occ_run (o : List Char) (ho : allWord o = true) (ho1 : o ≠ []) :
    ∀ {ob : Option Bool} {L : List (List Char)}, Alt ob L →
      ∀ u v, L.flatten = u ++ o ++ v →
        isWordO u.getLast? = false → isWordO v.head? = false → o ∈ L := by
  intro ob L hL
  induction hL with
  | nil =>
    intro u v h hu hv
    have h2 : u ++ (o ++ v) = [] := by
      rw [← List.append_assoc, ← h]
      rfl
    rcases List.append_eq_nil.mp h2 with ⟨_, h4⟩
    rcases List.append_eq_nil.mp h4 with ⟨h5, _⟩
    exact absurd h5 ho1
  | cons b w ob2 L2 hne hcls hob hL2 ih =>
    intro u v h hu hv
    rw [List.flatten_cons, List.append_assoc] at h
    rcases List.append_eq_append_iff.mp h with ⟨a, ha1, ha2⟩ | ⟨e, he1, he2⟩
    · have hu2 : isWordO a.getLast? = false := by
        cases haq : a with
        | nil => rfl
        | cons ac a' =>
          rw [ha1, haq, List.getLast?_append_of_ne_nil w (by simp)] at hu
          exact hu
      rw [← List.append_assoc] at ha2
      exact List.mem_cons_of_mem w (ih a v ha2 hu2 hv)
    · cases e with
      | nil =>
        rw [List.append_nil] at he1
        have ha2 : L2.flatten = [] ++ o ++ v := by
          rw [List.nil_append]
          exact he2.symm
        exact List.mem_cons_of_mem w (ih [] v ha2 rfl hv)
      | cons ec e' =>
        have hecw : isWord ec = b := by
          apply hcls
          rw [he1]
          exact List.mem_append_right _ (List.mem_cons_self ec e')
        have hecw2 : isWord ec = true := by
          cases o with
          | nil => exact absurd rfl ho1
          | cons oc o2 =>
            have : oc = ec := by
              have h3 : oc :: (o2 ++ v) = ec :: (e' ++ L2.flatten) := by
                rw [← List.cons_append, he2]
                rfl
              injection h3
            rw [← this]
            exact mem_allWord ho (List.mem_cons_self oc o2)
        have hb : b = true := by rw [← hecw, hecw2]
        have hu0 : u = [] := by
          cases huq : u with
          | nil => rfl
          | cons uc u' =>
            have hmem := List.getLast_mem (l := uc :: u') (by simp)
            have hw : isWord ((uc :: u').getLast (by simp)) = b := by
              apply hcls
              rw [he1, huq]
              exact List.mem_append_left _ hmem
            rw [huq, List.getLast?_eq_getLast (uc :: u') (by simp), isWordO_some,
              hw, hb] at hu
            cases hu
        subst hu0
        rw [List.nil_append] at he1
        rcases List.append_eq_append_iff.mp he2 with ⟨a2, hq1, hq2⟩ | ⟨c2, hq1, hq2⟩
        · cases a2 with
          | nil =>
            rw [List.append_nil] at hq1
            rw [he1, hq1]
            exact List.mem_cons_self _ _
          | cons ac a2' =>
            have hacw : isWord ac = b := by
              apply hcls
              rw [he1, hq1]
              exact List.mem_append_right _ (List.mem_cons_self ac a2')
            rw [hq2] at hv
            rw [List.head?_append_of_ne_nil (ac :: a2') (by simp)] at hv
            rw [List.head?_cons] at hv
            rw [isWordO_some, hacw, hb] at hv
            cases hv
        · cases c2 with
          | nil =>
            rw [List.append_nil] at hq1
            rw [he1, hq1]
            exact List.mem_cons_self _ _
          | cons gc g' =>
            have hgw : isWord gc = true := by
              apply mem_allWord ho
              rw [hq1]
              exact List.mem_append_right _ (List.mem_cons_self gc g')
            have := alt_flatten_head hL2 gc (g' ++ v) (by
              rw [hq2]
              rfl)
            rw [hb] at this
            exact absurd hgw this

/-- A word bounded occurrence found by the wbIn scanner yields an
explicit decomposition with non word neighbours. -/
theorem wbIn_elim (o : List Char) (ho : allWord o = true) (ho1 : o ≠ []) :
    ∀ (f : Nat) (p : Option Char) (l : List Char), wbIn o f p l = true →
      ∃ u v, l = u ++ o ++ v ∧ (u = [] → isWordO p = false) ∧
        (u ≠ [] → isWordO u.getLast? = false) ∧ isWordO v.head? = false := by
  intro f
  induction f with
  | zero => intro p l h; cases h
  | succ f2 ih =>
    intro p l h
    cases l with
    | nil => cases h
    | cons c r =>
      rw [wbIn] at h
      have h2 : (litPre o (c :: r) && bdryB p o.head? &&
          bdryB o.getLast? (List.drop o.length (c :: r)).head?) = true
          ∨ wbIn o f2 (some c) r = true := by
        cases hq : (litPre o (c :: r) && bdryB p o.head? &&
            bdryB o.getLast? (List.drop o.length (c :: r)).head?)
        · rw [hq] at h
          simp only [Bool.false_or] at h
          exact Or.inr h
        · exact Or.inl rfl
      rcases h2 with h1 | h1
      · simp only [Bool.and_eq_true] at h1
        obtain ⟨⟨hlit, hb1⟩, hb2⟩ := h1
        refine ⟨[], List.drop o.length (c :: r), ?_, ?_, ?_, ?_⟩
        · rw [List.nil_append]
          exact litPre_decomp hlit
        · intro _
          exact bdry_left_false hb1 (head_word_of ho ho1)
        · intro hq
          exact absurd rfl hq
        · exact bdry_right_false hb2 (last_word_of ho ho1)
      · obtain ⟨u2, v2, hr, hp1, hp2, hv2⟩ := ih (some c) r h1
        refine ⟨c :: u2, v2, ?_, ?_, ?_, hv2⟩
        · rw [hr]
          rfl
        · intro hq
          cases hq
        · intro _
          cases hu2 : u2 with
          | nil =>
            have := hp1 hu2
            rw [isWordO_some] at this
            simpa [isWordO] using this
          | cons uc u' =>
            rw [List.getLast?_cons_cons]
            rw [hu2] at hp2
            exact hp2 (by simp)

theorem ws_take : ∀ (r : List Char) (j : Nat), j ≤ wsCount r →
    ∀ c ∈ List.take j r, isSpace c = true := by
  intro r
  induction r with
  | nil =>
    intro j _ c hc
    simp at hc
  | cons d r' ih =>
    intro j hj c hc
    cases j with
    | zero => simp at hc
    | succ j2 =>
      by_cases hd : isSpace d = true
      · rw [wsCount, if_pos hd] at hj
        rw [List.take_succ_cons] at hc
        rcases List.mem_cons.mp hc with hc | hc
        · subst hc; exact hd
        · exact ih j2 (by omega) c hc
      · rw [wsCount, if_neg hd] at hj
        omega

theorem wsCount_head {a : List Char} (h : 1 ≤ wsCount a) :
    ∃ ac a', a = ac :: a' ∧ isSpace ac = true := by
  cases a with
  | nil => simp [wsCount] at h
  | cons ac a' =>
    by_cases hd : isSpace ac = true
    · exact ⟨ac, a', rfl, hd⟩
    · rw [wsCount, if_neg hd] at h
      omega

theorem sub2Back_ex {o r rest : List Char} : ∀ {j : Nat}, sub2Back o r j = some rest →
    ∃ j2, j2 ≤ j ∧ sub2TryEnd o r j2 = some rest := by
  intro j
  induction j with
  | zero =>
    intro h
    rw [sub2Back] at h
    exact ⟨0, Nat.le_refl 0, h⟩
  | succ j2 ih =>
    intro h
    rw [sub2Back] at h
    cases he : sub2TryEnd o r (j2 + 1) with
    | some q =>
      rw [he] at h
      injection h with h3
      subst h3
      exact ⟨j2 + 1, Nat.le_refl _, he⟩
    | none =>
      rw [he] at h
      obtain ⟨j3, hj3, hje⟩ := ih h
      exact ⟨j3, by omega, hje⟩

theorem sub2TryAt_occ (o : List Char) (ho : allWord o = true) (ho1 : o ≠ [])
    {t rest : List Char} (h : sub2TryAt o t = some rest) :
    ∃ u v, t = u ++ o ++ v ∧ u ≠ [] ∧ isWordO u.getLast? = false
      ∧ isWordO v.head? = false := by
  cases t with
  | nil => cases h
  | cons c r =>
    rw [sub2TryAt] at h
    by_cases hc : c = lbc
    · rw [if_pos hc] at h
      obtain ⟨j, hj, hje⟩ := sub2Back_ex h
      by_cases hl : litPre o (List.drop j r) = true
      · have hdec : r = List.take j r ++ (o ++ List.drop (j + o.length) r) := by
          have h1 : List.take j r ++ List.drop j r = r := List.take_append_drop j r
          have h2 : List.drop j r = o ++ List.drop o.length (List.drop j r) :=
            litPre_decomp hl
          rw [List.drop_drop] at h2
          conv_lhs => rw [← h1]
          rw [h2]
        refine ⟨c :: List.take j r, List.drop (j + o.length) r, ?_, by simp, ?_, ?_⟩
        · rw [show (c :: List.take j r) ++ o ++ List.drop (j + o.length) r
              = c :: (List.take j r ++ (o ++ List.drop (j + o.length) r)) from by simp]
          rw [← hdec]
        · cases hjq : List.take j r with
          | nil =>
            subst hc
            decide
          | cons x xs =>
            rw [List.getLast?_cons_cons, ← hjq]
            have hmem := List.getLast_mem (l := List.take j r) (by rw [hjq]; simp)
            have hws : isSpace (List.getLast (List.take j r) (by rw [hjq]; simp)) = true :=
              ws_take r j hj _ hmem
            rw [List.getLast?_eq_getLast _ (by rw [hjq]; simp), isWordO_some]
            exact space_not_word hws
        · rw [sub2TryEnd, if_pos hl] at hje
          dsimp only at hje
          cases hm : List.drop (wsCount (List.drop (j + o.length) r))
              (List.drop (j + o.length) r) with
          | nil => rw [hm] at hje; cases hje
          | cons x rest2 =>
            rw [hm] at hje
            dsimp only at hje
            by_cases hx : x = rbc
            · by_cases hz : wsCount (List.drop (j + o.length) r) = 0
              · rw [hz, List.drop_zero] at hm
                rw [hm, List.head?_cons, isWordO_some, hx]
                decide
              · obtain ⟨ac, a', ha, hws⟩ := wsCount_head
                  (a := List.drop (j + o.length) r) (by omega)
                rw [ha, List.head?_cons, isWordO_some]
                exact space_not_word hws
            · rw [if_neg hx] at hje
              cases hje
      · rw [sub2TryEnd, if_neg hl] at hje
        cases hje
    · rw [if_neg hc] at h
      cases h

theorem sub3TryAt_occ (o : List Char) (ho : allWord o = true) (ho1 : o ≠ [])
    {t rest : List Char} (h : sub3TryAt o t = some rest) :
    ∃ u v, t = u ++ o ++ v ∧ u ≠ [] ∧ isWordO u.getLast? = false
      ∧ isWordO v.head? = false := by
  cases t with
  | nil => cases h
  | cons a t1 =>
    cases t1 with
    | nil => cases h
    | cons b t2 =>
      cases t2 with
      | nil => cases h
      | cons c r =>
        rw [sub3TryAt] at h
        by_cases hc : (a = lbc && b = pcc && c = ' ') = true
        · rw [if_pos hc] at h
          have hc2 := hc
          simp only [Bool.and_eq_true, decide_eq_true_eq] at hc2
          obtain ⟨⟨ha, hb⟩, hsp⟩ := hc2
          cases hd : List.dropWhile (fun x => x ≠ pcc) r with
          | nil => rw [hd] at h; cases h
          | cons x s3 =>
            cases s3 with
            | nil => rw [hd] at h; cases h
            | cons y rest2 =>
              rw [hd] at h
              dsimp only at h
              by_cases hw : (x = pcc && y = rbc && wbIn o
                  ((List.takeWhile (fun x => x ≠ pcc) r).length + 1) (some ' ')
                  (List.takeWhile (fun x => x ≠ pcc) r ++ [pcc])) = true
              · have hw2 := hw
                simp only [Bool.and_eq_true, decide_eq_true_eq] at hw2
                obtain ⟨⟨hx, hy⟩, hwb⟩ := hw2
                obtain ⟨u2, v2, hfr, hp1, hp2, hv2⟩ := wbIn_elim o ho ho1 _ _ _ hwb
                have hv2ne : v2 ≠ [] := by
                  intro hq
                  subst hq
                  rw [List.append_nil] at hfr
                  have hlast1 : (List.takeWhile (fun x => x ≠ pcc) r ++ [pcc]).getLast?
                      = some pcc := by
                    rw [List.getLast?_append_of_ne_nil _ (by simp)]
                    rfl
                  rw [hfr, List.getLast?_append_of_ne_nil u2 ho1] at hlast1
                  have hlw := last_word_of ho ho1
                  rw [hlast1, isWordO_some] at hlw
                  have : isWord pcc = false := by decide
                  rw [this] at hlw
                  cases hlw
                have hr : r = u2 ++ o ++ (v2 ++ (y :: rest2)) := by
                  have h1 : List.takeWhile (fun x => x ≠ pcc) r
                      ++ List.dropWhile (fun x => x ≠ pcc) r = r :=
                    List.takeWhile_append_dropWhile _ _
                  rw [hd, hx] at h1
                  rw [← h1]
                  rw [show List.takeWhile (fun x => x ≠ pcc) r ++ pcc :: y :: rest2
                      = (List.takeWhile (fun x => x ≠ pcc) r ++ [pcc]) ++ (y :: rest2) from by
                    simp]
                  rw [hfr]
                  simp
                subst ha hb hsp
                refine ⟨lbc :: pcc :: ' ' :: u2, v2 ++ (y :: rest2), ?_, by simp, ?_, ?_⟩
                · rw [hr]
                  simp
                · cases hu2 : u2 with
                  | nil =>
                    have : isWord ' ' = false := by decide
                    simpa [isWordO] using this
                  | cons uc u' =>
                    rw [show lbc :: pcc :: ' ' :: (uc :: u')
                        = [lbc, pcc, ' '] ++ (uc :: u') from rfl]
                    rw [List.getLast?_append_of_ne_nil _ (by simp)]
                    rw [hu2] at hp2
                    exact hp2 (by simp)
                · rw [List.head?_append_of_ne_nil v2 hv2ne]
                  exact hv2
              · rw [if_neg hw] at h
                cases h
        · rw [if_neg hc] at h
          cases h

theorem sub2Go_nomatch (o n : List Char) :
    ∀ (f : Nat) (s : List Char), (∀ t, t <:+ s → sub2TryAt o t = none) →
      sub2Go o n f s = s := by
  intro f
  induction f with
  | zero => intro s _; rfl
  | succ f2 ih =>
    intro s H
    cases s with
    | nil => rfl
    | cons c r =>
      rw [sub2Go, H (c :: r) (List.suffix_refl _)]
      rw [ih r (fun t ht => ht.trans (List.suffix_cons c r) |> H t)]

theorem sub3Go_nomatch (o n : List Char) :
    ∀ (f : Nat) (s : List Char), (∀ t, t <:+ s → sub3TryAt o t = none) →
      sub3Go o n f s = s := by
  intro f
  induction f with
  | zero => intro s _; rfl
  | succ f2 ih =>
    intro s H
    cases s with
    | nil => rfl
    | cons c r =>
      rw [sub3Go, H (c :: r) (List.suffix_refl _)]
      rw [ih r (fun t ht => ht.trans (List.suffix_cons c r) |> H t)]

theorem sub2_no_token (o n : List Char) (ho : allWord o = true) (ho1 : o ≠ [])
    {ob : Option Bool} {L : List (List Char)} (hA : Alt ob L) (hno : o ∉ L) :
    sub2 o n L.flatten = L.flatten := by
  apply sub2Go_nomatch
  intro t ht
  cases hq : sub2TryAt o t with
  | none => rfl
  | some rest =>
    obtain ⟨u, v, htd, hune, hu, hv⟩ := sub2TryAt_occ o ho ho1 hq
    obtain ⟨pre, hpre⟩ := ht
    have hocc : L.flatten = (pre ++ u) ++ o ++ v := by
      rw [← hpre, htd]
      simp
    have hlast : isWordO (pre ++ u).getLast? = false := by
      rw [List.getLast?_append_of_ne_nil pre hune]
      exact hu
    exact absurd (occ_run o ho ho1 hA _ _ hocc hlast hv) hno

theorem sub3_no_token (o n : List Char) (ho : allWord o = true) (ho1 : o ≠ [])
    {ob : Option Bool} {L : List (List Char)} (hA : Alt ob L) (hno : o ∉ L) :
    sub3 o n L.flatten = L.flatten := by
  apply sub3Go_nomatch
  intro t ht
  cases hq : sub3TryAt o t with
  | none => rfl
  | some rest =>
    obtain ⟨u, v, htd, hune, hu, hv⟩ := sub3TryAt_occ o ho ho1 hq
    obtain ⟨pre, hpre⟩ := ht
    have hocc : L.flatten = (pre ++ u) ++ o ++ v := by
      rw [← hpre, htd]
      simp
    have hlast : isWordO (pre ++ u).getLast? = false := by
      rw [List.getLast?_append_of_ne_nil pre hune]
      exact hu
    exact absurd (occ_run o ho ho1 hA _ _ hocc hlast hv) hno

/-- The word runs produced by one substitution pair never equal the old
name: runs equal to it were rewritten to the distinct new name. -/
theorem no_o_run (o n : List Char) (ho : allWord o = true) (ho1 : o ≠ []) (hon : o ≠ n)
    {s : List Char} :
    o ∉ (runs s).map (fun w => if isWordO w.head? then (if w = o then n else w) else w) := by
  intro hmem
  obtain ⟨w, hwL, hwF⟩ := List.mem_map.mp hmem
  by_cases hcls : isWordO w.head? = true
  · rw [if_pos hcls] at hwF
    by_cases hwo : w = o
    · rw [if_pos hwo] at hwF
      exact hon hwF.symm
    · rw [if_neg hwo] at hwF
      exact hwo hwF
  · rw [if_neg hcls] at hwF
    apply hcls
    rw [hwF]
    exact head_word_of ho ho1

/-- One pair of the substitution loop acts token-wise: the first pass
rewrites exactly the maximal identifier runs equal to the old name, and
the two bracket passes find no word bounded old name left to fire on. -/
theorem applyPair_tokenwise (o n : List Char) (ho : allWord o = true) (ho1 : o ≠ [])
    (hn : allWord n = true) (hn1 : n ≠ []) (hon : o ≠ n) (s : List Char) :
    applyPair o n s = tokenWise (fun w => if w = o then n else w) s := by
  unfold applyPair
  rw [sub1_tokenwise o n ho ho1 s]
  have hg : ∀ w, w ≠ [] → allWord w = true →
      (if w = o then n else w) ≠ [] ∧ allWord (if w = o then n else w) = true := by
    intro w hw1 hw2
    by_cases hq : w = o
    · simp [hq, hn, hn1]
    · simp [hq, hw1, hw2]
  have hA : Alt none ((runs s).map
      (fun w => if isWordO w.head? then (if w = o then n else w) else w)) :=
    alt_map hg (runs_alt s)
  have hno := no_o_run o n ho ho1 hon (s := s)
  have h2 : sub2 o n (tokenWise (fun w => if w = o then n else w) s)
      = tokenWise (fun w => if w = o then n else w) s :=
    sub2_no_token o n ho ho1 hA hno
  rw [h2]
  exact sub3_no_token o n ho ho1 hA hno

/-- The whole substitution loop acts token-wise on maximal identifier
runs, each token being rewritten by the mapping pairs applied in table
order, for the identifier shaped stores the program builds. -/
theorem applyVarMappings_tokenwise :
    ∀ (vm : List (String × String)), IdStore vm → ∀ (s : List Char),
      applyVariableMappings vm s = tokenWise (applyTok vm) s := by
  intro vm
  induction vm with
  | nil =>
    intro _ s
    show s = tokenWise (applyTok []) s
    unfold tokenWise
    have hmap : ∀ (L : List (List Char)),
        L.map (fun w => if isWordO w.head? then applyTok [] w else w) = L := by
      intro L
      induction L with
      | nil => rfl
      | cons w L2 ihL =>
        rw [List.map_cons, ihL]
        congr 1
        by_cases hq : isWordO w.head? = true
        · rw [if_pos hq]
          rfl
        · rw [if_neg hq]
    rw [hmap, runs_flatten]
  | cons p vm2 ih =>
    intro hvm s
    obtain ⟨hpo, hpo1, hpn, hpn1, hpne⟩ := hvm p (List.mem_cons_self p vm2)
    have hstep : applyVariableMappings (p :: vm2) s
        = applyVariableMappings vm2 (applyPair p.1.data p.2.data s) := rfl
    rw [hstep, applyPair_tokenwise p.1.data p.2.data hpo hpo1 hpn hpn1 hpne s,
      ih (fun q hq => hvm q (List.mem_cons_of_mem p hq))]
    have hg : ∀ w, w ≠ [] → allWord w = true →
        (if w = p.1.data then p.2.data else w) ≠ []
          ∧ allWord (if w = p.1.data then p.2.data else w) = true := by
      intro w hw1 hw2
      by_cases hq : w = p.1.data
      · simp [hq, hpn, hpn1]
      · simp [hq, hw1, hw2]
    have hA : Alt none ((runs s).map
        (fun w => if isWordO w.head? then (if w = p.1.data then p.2.data else w) else w)) :=
      alt_map hg (runs_alt s)
    show tokenWise (applyTok vm2) (((runs s).map
        (fun w => if isWordO w.head? then (if w = p.1.data then p.2.data else w) else w)).flatten)
      = tokenWise (applyTok (p :: vm2)) s
    unfold tokenWise
    rw [alt_flatten_runs hA, List.map_map]
    congr 1
    apply List.map_congr_left
    intro w hw
    obtain ⟨hwne, hwcls⟩ := alt_mem_facts (runs_alt s) w hw
    by_cases hh : isWordO w.head? = true
    · have hword : allWord (if w = p.1.data then p.2.data else w) = true
          ∧ (if w = p.1.data then p.2.data else w) ≠ [] := by
        by_cases hq : w = p.1.data
        · simp [hq, hpn, hpn1]
        · refine ⟨?_, by simp [hq, hwne]⟩
          simp only [if_neg hq]
          simp only [allWord, List.all_eq_true]
          intro c hc
          rw [hwcls c hc, hh]
      have hh2 : isWordO (if w = p.1.data then p.2.data else w).head? = true :=
        head_word_of hword.1 hword.2
      dsimp only [Function.comp]
      rw [if_pos hh, if_pos hh2, if_pos hh]
      rfl
    · dsimp only [Function.comp]
      rw [if_neg hh, if_neg hh, if_neg hh]

/-- C8: substituting with the single mapping user_name to username maps
the example content to exactly the expected output, leaving the unmapped
role token untouched, and an interpolation of the longer identifier
user_name_full is unchanged by the same mapping. -/
theorem c8_substitution_example :
    applyVarMapS [("user_name", "username")] c8src = c8out
    ∧ applyVarMapS [("user_name", "username")] c8full = c8full := by
  refine ⟨by decide, by decide⟩

/- ------------------------------------------------------------------
Lemmas locating the emitted block header lines inside the output.
------------------------------------------------------------------ -/

theorem isSubstr_refl (x : List Char) : isSubstr x x = true :=
  litPre_isSubstr (litPre_refl x)

theorem isSubstr_append_left {old : List Char} (u : List Char) :
    ∀ (t : List Char), isSubstr old u = true → isSubstr old (t ++ u) = true := by
  intro t h
  induction t with
  | nil => exact h
  | cons c r ih => exact isSubstr_cons c ih

theorem str_data_append (a b : String) : (a ++ b).data = a.data ++ b.data := rfl

theorem isSubstr_joinNL : ∀ (L : List String) (l : String), l ∈ L →
    isSubstr l.data (joinNL L).data = true := by
  intro L
  induction L with
  | nil => intro l hl; cases hl
  | cons a ls ih =>
    intro l hl
    cases hls : ls with
    | nil =>
      rw [hls] at hl
      rcases List.mem_cons.mp hl with hq | hq
      · subst hq
        exact isSubstr_refl l.data
      · cases hq
    | cons b ls2 =>
      subst hls
      rw [show joinNL (a :: b :: ls2) = a ++ "\n" ++ joinNL (b :: ls2) from rfl]
      rcases List.mem_cons.mp hl with hq | hq
      · subst hq
        rw [str_data_append, str_data_append]
        rw [List.append_assoc]
        exact litPre_isSubstr (litPre_append _ (litPre_refl l.data))
      · rw [str_data_append]
        exact isSubstr_append_left _ _ (ih l hq)

theorem header_mem_blockLines (bm : List (String × String))
    (vm : List (String × String)) :
    ∀ (blocks : List (List Char × List Char)) (p : List Char × List Char), p ∈ blocks →
      (obr ++ "% block " ++ ((pyGet bm (String.mk p.1)).getD (String.mk p.1)) ++ " %" ++ cbr)
        ∈ blocks.foldr (fun p acc =>
            (obr ++ "% block " ++ ((pyGet bm (String.mk p.1)).getD (String.mk p.1)) ++ " %" ++ cbr) ::
            String.mk (applyVariableMappings vm p.2) ::
            (obr ++ "% endblock %" ++ cbr) :: "" :: acc) [] := by
  intro blocks
  induction blocks with
  | nil => intro p hp; cases hp
  | cons q rest ih =>
    intro p hp
    rw [List.foldr_cons]
    rcases List.mem_cons.mp hp with hq | hq
    · subst hq
      exact List.mem_cons_self _ _
    · exact List.mem_cons_of_mem _ (List.mem_cons_of_mem _
        (List.mem_cons_of_mem _ (List.mem_cons_of_mem _ (ih p hq))))

/- ------------------------------------------------------------------
Claim C4: block names and variable tokens in the rewritten output.
------------------------------------------------------------------ -/

/-- C4, counterexample: with the table a to b, b to c applied in
iteration order, the sole variable token a of the content is substituted,
yet the output interpolates c, which no single table entry assigns to a.
The two further conjuncts show the shape restrictions of the amendment
are forced: a new name that is not a plain identifier makes the third
regex pass swallow a whole directive, deleting the unmapped token role;
and a pair whose old and new names are equal makes the second pass strip
the interpolation braces around the token. -/
theorem c4_entry_correspondence_cex :
    pyGet [("a", "b"), ("b", "c")] "a" = some "b"
    ∧ applyVarMapS [("a", "b"), ("b", "c")] (interp "a") = interp "c"
    ∧ interp "c" ≠ interp "b"
    ∧ pyGet [("a", "b"), ("b", "c")] "a" ≠ some "c"
    ∧ applyVarMapS [("user", "x-user")] (obr ++ "% if user and role %" ++ cbr) = "x-user"
    ∧ applyVarMapS [("user", "user")] (obr ++ " user " ++ cbr) = "user" := by
  refine ⟨rfl, by decide, by decide, by decide, by decide, by decide⟩

/-- C4, amended.  Block half, kept from the original claim: every block
name the engine emits a declaration for is either the extracted original
name or the value the block mapping assigns to that original name, and
the header line for each such name occurs in the generated output — no
block name is invented.  Variable half: over mapping stores whose old and
new names are nonempty word-character identifiers with old different
from new (the shape the program prompts and heuristic tables build),
substitution acts token-wise on the maximal identifier runs of the
content: each token is rewritten by chaining the entries in table order,
so a substituted token can end as a name no single entry assigns to it,
and every occurrence of a token that equals no old name passes through
textually unchanged. -/
theorem c4_blocknames_and_tokens :
    (∀ bm src n, n ∈ emittedBlockNames bm src →
        ∃ m, m ∈ (extractBlocksContent src).map (fun p => String.mk p.1)
          ∧ (n = m ∨ pyGet bm m = some n))
    ∧ (∀ nb bm vm info path n, n ∈ emittedBlockNames bm info.src.data →
        isSubstr (obr ++ "% block " ++ n ++ " %" ++ cbr).data
          (generateNewTemplate nb bm vm info path).data = true)
    ∧ (∀ vm, IdStore vm → ∀ s : List Char,
        applyVariableMappings vm s = tokenWise (applyTok vm) s)
    ∧ (∀ vm w, (∀ p ∈ vm, p.1.data ≠ w) → applyTok vm w = w)
    ∧ applyVarMapS [("a", "b"), ("b", "c")] (interp "a") = interp "c" := by
  refine ⟨?_, ?_, ?_, ?_, by decide⟩
  · intro bm src n hn
    obtain ⟨p, hp, hpn⟩ := List.mem_map.mp hn
    refine ⟨String.mk p.1, List.mem_map_of_mem _ hp, ?_⟩
    cases hq : pyGet bm (String.mk p.1) with
    | none =>
      left
      rw [hq] at hpn
      simp only [Option.getD_none] at hpn
      exact hpn.symm
    | some v =>
      right
      rw [hq] at hpn
      simp only [Option.getD_some] at hpn
      rw [hpn]
  · intro nb bm vm info path n hn
    obtain ⟨p, hp, hpn⟩ := List.mem_map.mp hn
    have hmem := header_mem_blockLines bm vm (extractBlocksContent info.src.data) p hp
    rw [hpn] at hmem
    unfold generateNewTemplate
    apply isSubstr_joinNL
    exact List.mem_append_left _ (List.mem_append_left _ (List.mem_append_right _ hmem))
  · exact applyVarMappings_tokenwise
  · intro vm w h
    induction vm with
    | nil => rfl
    | cons p vm2 ih =>
      have hstep : applyTok (p :: vm2) w
          = applyTok vm2 (if w = p.1.data then p.2.data else w) := rfl
      rw [hstep, if_neg (fun hq => h p (List.mem_cons_self p vm2) hq.symm)]
      exact ih (fun q hq => h q (List.mem_cons_of_mem p hq))

/-- C4, witness for the amended theorem: the token-wise form applied to a
concrete identifier store and content, and pass-through of a token that
is no old name. -/
theorem c4_blocknames_and_tokens_witness :
    applyVariableMappings [("user_name", "username")] "role and user_name".data
      = tokenWise (applyTok [("user_name", "username")]) "role and user_name".data
    ∧ applyTok [("user_name", "username")] "role".data = "role".data :=
  ⟨c4_blocknames_and_tokens.2.2.1 [("user_name", "username")]
    (by
      intro p hp
      rw [List.mem_singleton] at hp
      subst hp
      refine ⟨by decide, by decide, by decide, by decide, by decide⟩)
    "role and user_name".data,
   c4_blocknames_and_tokens.2.2.2.1 [("user_name", "username")] "role".data
    (by
      intro p hp
      rw [List.mem_singleton] at hp
      subst hp
      decide)⟩

/- ------------------------------------------------------------------
Claim C1: well-formedness of the rewritten output.
------------------------------------------------------------------ -/

/-- C1: on a raw source with one block nested inside another, the parser
walk accepts the source and finds the blocks outer and inner, but the
extraction regex captures for outer only the text up to the first
endblock, re-embedding the inner open without its close, so the
generated output is not well-formed under the grammar the parser
accepts: the inner block open has no matching close. -/
theorem c1_nested_blocks_break_grammar :
    parseBlocks s1src.data = some ["outer".data, "inner".data]
    ∧ extractBlocksContent s1src.data =
        [("outer".data, ("A" ++ obr ++ "% block inner %" ++ cbr ++ "B").data)]
    ∧ wellFormedSpec s1out.data = false := by
  refine ⟨by decide, by decide, by decide⟩

/- ------------------------------------------------------------------
Claim C3: block name sets of parse and rewrite.
------------------------------------------------------------------ -/

/-- C3: on a source whose single block is written with whitespace control
markers, the parser walk finds the block content, but the extraction
regex, which requires a plain brace-percent opener, finds nothing; the
rewritten output under an empty mapping and empty base therefore declares
no blocks at all, so its block name set differs from that of the parse. -/
theorem c3_block_name_sets_diverge :
    parseBlocks t3src.data = some ["content".data]
    ∧ (extractBlocksContent t3src.data).map Prod.fst = []
    ∧ parseBlocks t3out.data = some []
    ∧ ¬(("content".data ∈ (["content".data] : List (List Char)))
        ↔ "content".data ∈ ([] : List (List Char))) := by
  refine ⟨by decide, by decide, by decide, by decide⟩

/- ------------------------------------------------------------------
Claim C7: a detected open with no matching close.
------------------------------------------------------------------ -/

/-- C7, counterexample: on a source that parses (so the rewrite stage is
reached) in which the extraction regex detects the open of block a but
cannot match its whitespace-control close, no error of any kind is
produced: the extraction silently returns no blocks and migrate_template
reports the template as successful, not as failed. -/
theorem c7_no_rewrite_error_cex :
    parseBlocks s7src.data = some ["a".data]
    ∧ opensDetected s7src.data = ["a".data]
    ∧ extractBlocksContent s7src.data = []
    ∧ (migrateTemplate "base.html" (fun _ => false) (fun t => some t)
        (fun _ => some (TemplateInfo.mk [] ["a"] s7src)) [] [] "t.html").1 = true := by
  refine ⟨by decide, by decide, by decide, by decide⟩

/-- C7, amended: when extraction cannot locate a matching close for a
detected open, the block is silently dropped: the template is written
with an output that declares no blocks, and the migration reports
success. -/
theorem c7_silent_drop :
    migrateTemplate "base.html" (fun _ => false) (fun t => some t)
        (fun _ => some (TemplateInfo.mk [] ["a"] s7src)) [] [] "t.html"
      = (true, some ("t.html", s7out))
    ∧ parseBlocks s7out.data = some [] := by
  refine ⟨by decide, by decide⟩

/- ------------------------------------------------------------------
Claim C9: isolation of per template failures in a batch.
------------------------------------------------------------------ -/

/-- C9: in a batch of three templates none of which is excluded or
skipped, where the second fails to parse and the others parse, the loop
completes, counts exactly two successes and one failure, and writes
exactly the outputs of the first and third templates, in order. -/
theorem c9_batch_partial_failure (nb : String) (sE : String → Bool)
    (tF : String → Option String) (pI : String → Option TemplateInfo)
    (bm vm : List (String × String)) (t1 t2 t3 u1 u2 u3 : String)
    (i1 i3 : TemplateInfo)
    (h1 : sE t1 = false) (h2 : sE t2 = false) (h3 : sE t3 = false)
    (g1 : tF t1 = some u1) (g2 : tF t2 = some u2) (g3 : tF t3 = some u3)
    (p1 : pI t1 = some i1) (p2 : pI t2 = none) (p3 : pI t3 = some i3) :
    runBatch nb sE tF pI bm vm [t1, t2, t3] =
      (2, 1, [(u1, generateNewTemplate nb bm vm i1 t1),
              (u3, generateNewTemplate nb bm vm i3 t3)]) := by
  simp [runBatch, migrateTemplate, h1, h2, h3, g1, g2, g3, p1, p2, p3]

/-- C9, witness: a concrete three template batch with the middle parse
failing, through the batch theorem. -/
theorem c9_batch_witness :
    runBatch "base.html" (fun _ => false) (fun t => some t)
      (fun t => if t = "b.html" then none else some (TemplateInfo.mk [] [] "x"))
      [] [] ["a.html", "b.html", "c.html"]
    = (2, 1,
       [("a.html", generateNewTemplate "base.html" [] [] (TemplateInfo.mk [] [] "x") "a.html"),
        ("c.html", generateNewTemplate "base.html" [] [] (TemplateInfo.mk [] [] "x") "c.html")]) :=
  c9_batch_partial_failure "base.html" (fun _ => false) (fun t => some t)
    (fun t => if t = "b.html" then none else some (TemplateInfo.mk [] [] "x"))
    [] [] "a.html" "b.html" "c.html" "a.html" "b.html" "c.html"
    (TemplateInfo.mk [] [] "x") (TemplateInfo.mk [] [] "x")
    rfl rfl rfl rfl rfl rfl (by decide) (by decide) (by decide)

/- ------------------------------------------------------------------
Claim C10: excluded and skipped templates count as successful.
------------------------------------------------------------------ -/

/-- C10: an excluded template, and a template the operator skips, both
return success with no file written, and over any batch the successful
count equals the number of excluded templates plus the number of skipped
templates plus the number of actually rewritten templates. -/
theorem c10_success_includes_skips (nb : String) (sE : String → Bool)
    (tF : String → Option String) (pI : String → Option TemplateInfo)
    (bm vm : List (String × String)) :
    (∀ t, sE t = true → migrateTemplate nb sE tF pI bm vm t = (true, none))
    ∧ (∀ t, sE t = false → tF t = none →
        migrateTemplate nb sE tF pI bm vm t = (true, none))
    ∧ ∀ ts : List String,
        (runBatch nb sE tF pI bm vm ts).1 =
          (ts.filter (fun t => sE t)).length
          + (ts.filter (fun t => !sE t && (tF t).isNone)).length
          + (ts.filter (fun t => !sE t && (tF t).isSome && (pI t).isSome)).length := by
  refine ⟨?_, ?_, ?_⟩
  · intro t h
    simp [migrateTemplate, h]
  · intro t h1 h2
    simp [migrateTemplate, h1, h2]
  · intro ts
    induction ts with
    | nil => rfl
    | cons t ts ih =>
      by_cases h : sE t = true
      · simp only [runBatch, migrateTemplate, h, if_true, List.filter_cons]
        simp [h, ih]
        omega
      · have hb : sE t = false := by
          cases hq : sE t
          · rfl
          · exact absurd hq h
        cases hf : tF t with
        | none =>
          simp only [runBatch, migrateTemplate, hb, hf, List.filter_cons]
          simp [hb, hf, ih]
          omega
        | some u =>
          cases hp : pI t with
          | none =>
            simp only [runBatch, migrateTemplate, hb, hf, hp, List.filter_cons]
            simp [hb, hf, hp, ih]
          | some i =>
            simp only [runBatch, migrateTemplate, hb, hf, hp, List.filter_cons]
            simp [hb, hf, hp, ih]
            omega

/-- C10, witness: an excluded template reports success with no write,
through the counting theorem. -/
theorem c10_success_includes_skips_witness :
    migrateTemplate "base.html" (fun _ => true) (fun _ => none) (fun _ => none)
      [] [] "t.html" = (true, none) :=
  (c10_success_includes_skips "base.html" (fun _ => true) (fun _ => none)
    (fun _ => none) [] []).1 "t.html" rfl

end JM
